import Mathlib

/-!
The S3 document backend of confd.

A shallow embedding of `pkg/backends/s3/client.go` and `pkg/util/revision.go`:
the flattening walk `nodeWalk`, the cached fetch `GetValues` with its prefix
filter, and the revision token they are keyed on.

Conventions of the embedding

* A Go `string` is the list of its bytes, written `GoString`; ASCII literals are
  written `"/a".toList`.
* A Go `map[string]string` is an association list `Vars`; `mapSet` is the
  assignment `m[k] = v`, `mapGet` the lookup.  The order of the list is the
  (unspecified) iteration order of the map, so maps are compared through
  `mapGet`.
* A Go `map[...]interface{}` inside a decoded document is the list of its
  entries in the order the `range` loop visits them.
* A run-time panic is the result `none` of `nodeWalk` and `Ret.panicked` of
  `GetValues`.
* What lives outside the repository (the S3 store, the JSON and YAML decoders,
  `strconv.FormatFloat`) is an explicit argument.
-/

namespace Confd

/-! ## Strings and the standard-library helpers the code calls -/

/-- A Go string, as the list of its bytes. -/
abbrev GoString := List Char

/-- Go `strings.HasPrefix(s, pre)`: plain byte-wise comparison. -/
def HasPrefix (s pre : GoString) : Bool :=
  pre.isPrefixOf s

/-- The decimal digit for `d < 10`. -/
def digitChar : Nat → Char
  | 0 => '0'
  | 1 => '1'
  | 2 => '2'
  | 3 => '3'
  | 4 => '4'
  | 5 => '5'
  | 6 => '6'
  | 7 => '7'
  | 8 => '8'
  | _ => '9'

/-- Decimal digits of `n`, most significant first; `fuel` bounds the number of
digits and `n + 1` is always enough. -/
def natDigitsFuel : Nat → Nat → GoString
  | 0, _ => []
  | fuel + 1, n =>
    if n < 10 then [digitChar n]
    else natDigitsFuel fuel (n / 10) ++ [digitChar (n % 10)]

/-- Decimal numeral of a natural number. -/
def natDigits (n : Nat) : GoString :=
  natDigitsFuel (n + 1) n

/-- Go `strconv.Itoa`: the decimal numeral, with a leading minus sign for a
negative number. -/
def Itoa : Int → GoString
  | Int.ofNat n => natDigits n
  | Int.negSucc n => '-' :: natDigits (n + 1)

/-- Go `strconv.FormatBool`. -/
def FormatBool (b : Bool) : GoString :=
  if b then "true".toList else "false".toList

/-- One step of `path.Clean` over the `/`-separated elements of a path: the
elements kept so far are in `out`, last one first.  An empty element and `.`
are dropped; `..` removes the last kept element when there is one that is not
itself `..`, is dropped at the root of a rooted path, and is kept otherwise;
every other element is kept. -/
def cleanStep (rooted : Bool) (out : List GoString) (elem : GoString) : List GoString :=
  if elem = [] ∨ elem = ['.'] then out
  else if elem = ['.', '.'] then
    match out with
    | top :: rest =>
      if top = ['.', '.'] then elem :: out else rest
    | [] => if rooted then [] else [elem]
  else elem :: out

/-- Go `path.Clean`: the shortest path equivalent to `p` by lexical processing.
The empty path becomes `.`; a rooted path stays rooted. -/
def Clean (p : GoString) : GoString :=
  if p = [] then ['.']
  else
    let rooted := p.head? = some '/'
    let out := ((p.splitOn '/').foldl (cleanStep rooted) []).reverse
    if rooted then '/' :: ['/'].intercalate out
    else if out = [] then ['.']
    else ['/'].intercalate out

/-- Go `path.Join(a, b)`: empty leading elements are ignored, the rest is joined
with a slash and cleaned; the result is empty when both are empty. -/
def Join (a b : GoString) : GoString :=
  if a = [] then
    if b = [] then [] else Clean b
  else Clean (a ++ '/' :: b)

/-- Scan of `filepath.Ext` from the end of the path: `rev` is what is still to
be read, last byte first, and `acc` what has been read. -/
def extScan : GoString → GoString → GoString
  | [], _ => []
  | c :: rev, acc =>
    if c = '/' then []
    else if c = '.' then '.' :: acc
    else extScan rev (c :: acc)

/-- Go `filepath.Ext` (with `/` as the separator): the suffix starting at the
last dot of the last element of the path, empty when there is none. -/
def Ext (p : GoString) : GoString :=
  extScan p.reverse []

/-! ## The flat namespace -/

/-- A Go `map[string]string`; the nil map and the empty map are both `[]`. -/
abbrev Vars := List (GoString × GoString)

/-- Lookup `m[k]` with the presence flag. -/
def mapGet : Vars → GoString → Option GoString
  | [], _ => none
  | (k1, v) :: m, k => if k = k1 then some v else mapGet m k

/-- The Go expression `m[k]`: the value, or the empty string when absent. -/
def mapIndex (m : Vars) (k : GoString) : GoString :=
  (mapGet m k).getD []

/-- The Go assignment `m[k] = v`. -/
def mapSet (m : Vars) (k v : GoString) : Vars :=
  (k, v) :: m.filter (fun e => !decide (e.1 = k))

/-- The keys of a map, in iteration order. -/
def mapKeys (m : Vars) : List GoString :=
  m.map Prod.fst

/-! ## Decoded documents -/

/-- A float64, as its IEEE-754 bit pattern. -/
structure Float64 where
  bits : Nat
deriving DecidableEq, Repr

/-- A decoded document: the dynamic types the type switch of `nodeWalk`
distinguishes, and `other` for every value of another dynamic type (the nil
of a JSON null, a YAML uint64, ...). -/
inductive Node where
  | slice (elems : List Node)
  | mapIface (entries : List (Node × Node))
  | mapString (entries : List (GoString × Node))
  | str (s : GoString)
  | int (n : Int)
  | bool (b : Bool)
  | float64 (f : Float64)
  | other

mutual
/-- Source `nodeWalk(node, key, vars)`: the map `vars` after the walk, or `none`
when the walk panics.  `fmtFloat` is `strconv.FormatFloat(·, 'f', -1, 64)`. -/
def nodeWalk (fmtFloat : Float64 → GoString) : Node → GoString → Vars → Option Vars
  | .slice elems, key, vars => walkSlice fmtFloat elems 0 key vars
  | .mapIface entries, key, vars => walkIface fmtFloat entries key vars
  | .mapString entries, key, vars => walkString fmtFloat entries key vars
  | .str s, key, vars => some (mapSet vars key s)
  | .int n, key, vars => some (mapSet vars key (Itoa n))
  | .bool b, key, vars => some (mapSet vars key (FormatBool b))
  | .float64 f, key, vars => some (mapSet vars key (fmtFloat f))
  | .other, _, vars => some vars
/-- The loop `for i, j := range node` over a `[]interface{}`, from index `i`. -/
def walkSlice (fmtFloat : Float64 → GoString) :
    List Node → Nat → GoString → Vars → Option Vars
  | [], _, _, vars => some vars
  | j :: rest, i, key, vars =>
    match nodeWalk fmtFloat j (Join key (Itoa (Int.ofNat i))) vars with
    | none => none
    | some vars1 => walkSlice fmtFloat rest (i + 1) key vars1
/-- The loop `for k, v := range node` over a `map[interface{}]interface{}`; the
type assertion `k.(string)` panics on a key that is not a string. -/
def walkIface (fmtFloat : Float64 → GoString) :
    List (Node × Node) → GoString → Vars → Option Vars
  | [], _, vars => some vars
  | (k, v) :: rest, key, vars =>
    match k with
    | .str name =>
      match nodeWalk fmtFloat v (Join key name) vars with
      | none => none
      | some vars1 => walkIface fmtFloat rest key vars1
    | _ => none
/-- The loop `for k, v := range node` over a `map[string]interface{}`. -/
def walkString (fmtFloat : Float64 → GoString) :
    List (GoString × Node) → GoString → Vars → Option Vars
  | [], _, vars => some vars
  | (k, v) :: rest, key, vars =>
    match nodeWalk fmtFloat v (Join key k) vars with
    | none => none
    | some vars1 => walkString fmtFloat rest key vars1
end

/-! ## The revision token and the client -/

/-- Source `util.Revision` (the mutex is not part of the sequential model). -/
structure Revision where
  rev : GoString
deriving DecidableEq, Repr

/-- Source `(*Revision).Current`. -/
def Revision.Current (r : Revision) : GoString :=
  r.rev

/-- A Go `error` value. -/
structure Error where
  msg : GoString
deriving DecidableEq, Repr

/-- Source `s3.Client`: `revision` is the pointer to the shared `util.Revision`
(its pointee is passed to `GetValues`), and the S3 handle is the store
argument of `GetValues`. -/
structure Client where
  bucket : GoString
  key : GoString
  vars : Vars
  currRevision : GoString
  revision : Nat
deriving DecidableEq, Repr

/-- What the store answers to this call's `GetObject` and to reading the body,
should the call ask. -/
inductive StoreReply where
  | getObjectErr (e : Error)
  | readAllErr (e : Error)
  | body (bytes : GoString)

/-- The libraries outside the repository: `strconv.FormatFloat(·, 'f', -1, 64)`,
`json.Unmarshal` into a `map[string]interface{}` and `yaml.Unmarshal` into a
`map[interface{}]interface{}`. -/
structure Libs where
  fmtFloat : Float64 → GoString
  jsonUnmarshal : GoString → Except Error (List (GoString × Node))
  yamlUnmarshal : GoString → Except Error (List (Node × Node))

/-- The error of the `default` branch of the extension switch. -/
def invalidExtension : Error :=
  ⟨"Invalid file extension, only json or yaml files allowed".toList⟩

/-- What the refresh block of `GetValues` (lines 75-110) ends with. -/
inductive Fetched where
  | vars (vars : Vars)
  | err (e : Error)
  | panicked

/-- Lines 75-110 of `GetValues`: fetch the object, read it, decode it by the
extension of the key and flatten it from the root path. -/
def fetch (libs : Libs) (c : Client) (reply : StoreReply) : Fetched :=
  match reply with
  | .getObjectErr e => .err e
  | .readAllErr e => .err e
  | .body body =>
    if Ext c.key = ".json".toList then
      match libs.jsonUnmarshal body with
      | .error e => .err e
      | .ok fileMap =>
        match nodeWalk libs.fmtFloat (.mapString fileMap) "/".toList [] with
        | none => .panicked
        | some vars => .vars vars
    else if Ext c.key = [] ∨ Ext c.key = ".yml".toList ∨ Ext c.key = ".yaml".toList then
      match libs.yamlUnmarshal body with
      | .error e => .err e
      | .ok fileMap =>
        match nodeWalk libs.fmtFloat (.mapIface fileMap) "/".toList [] with
        | none => .panicked
        | some vars => .vars vars
    else .err invalidExtension

/-- Lines 118-125 of `GetValues`: for every key of the cache and every requested
key, copy the entry when the requested key is a prefix of its key. -/
def filterVars (vars : Vars) (keys : List GoString) : Vars :=
  (mapKeys vars).foldl
    (fun out k =>
      keys.foldl (fun out key => if HasPrefix k key then mapSet out k (mapIndex vars k) else out)
        out)
    []

/-- What a `GetValues` call returns: `(filteredVars, nil)`, `(nil, err)`, or
nothing because it panicked. -/
inductive Ret where
  | ok (filteredVars : Vars)
  | err (e : Error)
  | panicked
deriving DecidableEq

/-- A `GetValues` call seen from outside: the client after it, what it returned
and how many `GetObject` calls it issued. -/
structure Outcome where
  client : Client
  ret : Ret
  getObjectCalls : Nat

/-- Source `(*Client).GetValues(keys)`; `r` is the `util.Revision` the client
points to, in its state when the call starts. -/
def GetValues (libs : Libs) (c : Client) (r : Revision) (reply : StoreReply)
    (keys : List GoString) : Outcome :=
  let rev := r.Current
  if c.currRevision ≠ rev then
    match fetch libs c reply with
    | .err e => ⟨c, .err e, 1⟩
    | .panicked => ⟨c, .panicked, 1⟩
    | .vars vars =>
      ⟨{ c with vars := vars, currRevision := rev }, .ok (filterVars vars keys), 1⟩
  else ⟨c, .ok (filterVars c.vars keys), 0⟩

/-- What `session.NewSession`, `HeadBucket` and `HeadObject` answer during
construction: `none` for success. -/
structure AwsReplies where
  newSession : Option Error
  headBucket : Option Error
  headObject : Option Error

/-- Source `NewS3Client(bucket, key, revision)`; the wrapped error texts of
`fmt.Errorf` are kept abstract as the underlying error. -/
def NewS3Client (aws : AwsReplies) (bucket key : GoString) (revision : Nat) :
    Except Error Client :=
  if bucket = [] then .error ⟨"Bucket must be defined".toList⟩
  else if key = [] then .error ⟨"Key must be defined".toList⟩
  else
    match aws.newSession with
    | some e => .error e
    | none =>
      match aws.headBucket with
      | some e => .error e
      | none =>
        match aws.headObject with
        | some e => .error e
        | none => .ok ⟨bucket, key, [], [], revision⟩

/-! ## Vocabulary of the statements -/

/-- The path written from its elements: a slash, then the elements joined by
slashes; the empty list of elements is the root path. -/
def renderPath (segs : List GoString) : GoString :=
  '/' :: ['/'].intercalate segs

/-- A field name that `path.Join` appends unchanged: not empty, without a slash,
and neither `.` nor `..`. -/
def niceName (s : GoString) : Bool :=
  decide (s ≠ [] ∧ '/' ∉ s ∧ s ≠ ['.'] ∧ s ≠ ['.', '.'])

/-- The names of the string keys of a `map[interface{}]interface{}`. -/
def ifaceNames : List (Node × Node) → List GoString
  | [] => []
  | (.str name, _) :: rest => name :: ifaceNames rest
  | (_, _) :: rest => ifaceNames rest

mutual
/-- Every object key of the document is a string and a `niceName`. -/
def niceNames : Node → Bool
  | .slice elems => niceSlice elems
  | .mapIface entries => niceIface entries
  | .mapString entries => niceString entries
  | _ => true
/-- The elements of a slice have nice names throughout. -/
def niceSlice : List Node → Bool
  | [] => true
  | j :: rest => niceNames j && niceSlice rest
/-- The keys of the entries are nice strings, and so are the names below. -/
def niceIface : List (Node × Node) → Bool
  | [] => true
  | (.str name, v) :: rest => niceName name && niceNames v && niceIface rest
  | (_, _) :: _ => false
/-- The keys of the entries are nice, and so are the names below. -/
def niceString : List (GoString × Node) → Bool
  | [] => true
  | (k, v) :: rest => niceName k && niceNames v && niceString rest
end

mutual
/-- The entry lists of the document are Go maps: no object holds a field name
twice. -/
def distinctKeys : Node → Bool
  | .slice elems => distinctSlice elems
  | .mapIface entries => decide (ifaceNames entries).Nodup && distinctIface entries
  | .mapString entries => decide (entries.map Prod.fst).Nodup && distinctString entries
  | _ => true
/-- The elements of a slice hold no field name twice. -/
def distinctSlice : List Node → Bool
  | [] => true
  | j :: rest => distinctKeys j && distinctSlice rest
/-- The values of the entries hold no field name twice. -/
def distinctIface : List (Node × Node) → Bool
  | [] => true
  | (_, v) :: rest => distinctKeys v && distinctIface rest
/-- The values of the entries hold no field name twice. -/
def distinctString : List (GoString × Node) → Bool
  | [] => true
  | (_, v) :: rest => distinctKeys v && distinctString rest
end

mutual
/-- The number of scalar leaves (string, int, bool, float64) of a document. -/
def leaves : Node → Nat
  | .slice elems => leavesSlice elems
  | .mapIface entries => leavesIface entries
  | .mapString entries => leavesString entries
  | .str _ => 1
  | .int _ => 1
  | .bool _ => 1
  | .float64 _ => 1
  | .other => 0
/-- The scalar leaves below the elements of a slice. -/
def leavesSlice : List Node → Nat
  | [] => 0
  | j :: rest => leaves j + leavesSlice rest
/-- The scalar leaves below the values of the entries. -/
def leavesIface : List (Node × Node) → Nat
  | [] => 0
  | (_, v) :: rest => leaves v + leavesIface rest
/-- The scalar leaves below the values of the entries. -/
def leavesString : List (GoString × Node) → Nat
  | [] => 0
  | (_, v) :: rest => leaves v + leavesString rest
end

mutual
/-- Every key of every `map[interface{}]interface{}` of the document is a
string. -/
def stringKeys : Node → Bool
  | .slice elems => stringKeysSlice elems
  | .mapIface entries => stringKeysIface entries
  | .mapString entries => stringKeysString entries
  | _ => true
/-- The elements of a slice have string keys throughout. -/
def stringKeysSlice : List Node → Bool
  | [] => true
  | j :: rest => stringKeys j && stringKeysSlice rest
/-- The keys of the entries are strings, and so are the keys below. -/
def stringKeysIface : List (Node × Node) → Bool
  | [] => true
  | (.str _, v) :: rest => stringKeys v && stringKeysIface rest
  | (_, _) :: _ => false
/-- The values of the entries have string keys throughout. -/
def stringKeysString : List (GoString × Node) → Bool
  | [] => true
  | (_, v) :: rest => stringKeys v && stringKeysString rest
end

/-- Put the path element `seg` in front of every path of the list. -/
def underSeg (seg : GoString) (ps : List (List GoString × GoString)) :
    List (List GoString × GoString) :=
  ps.map (fun e => (seg :: e.1, e.2))

mutual
/-- The scalar leaves of a document, each with the elements on the path to it
(the field name for an object step, the decimal index for an array step) and
its stringified value.  A key that is not a string names no path. -/
def leafPaths (fmtFloat : Float64 → GoString) : Node → List (List GoString × GoString)
  | .slice elems => slicePaths fmtFloat elems 0
  | .mapIface entries => ifacePaths fmtFloat entries
  | .mapString entries => stringPaths fmtFloat entries
  | .str s => [([], s)]
  | .int n => [([], Itoa n)]
  | .bool b => [([], FormatBool b)]
  | .float64 f => [([], fmtFloat f)]
  | .other => []
/-- The leaves below the elements of a slice, the first element having index `i`. -/
def slicePaths (fmtFloat : Float64 → GoString) :
    List Node → Nat → List (List GoString × GoString)
  | [], _ => []
  | j :: rest, i =>
    underSeg (Itoa (Int.ofNat i)) (leafPaths fmtFloat j) ++ slicePaths fmtFloat rest (i + 1)
/-- The leaves below the entries of a `map[interface{}]interface{}`. -/
def ifacePaths (fmtFloat : Float64 → GoString) :
    List (Node × Node) → List (List GoString × GoString)
  | [] => []
  | (.str name, v) :: rest => underSeg name (leafPaths fmtFloat v) ++ ifacePaths fmtFloat rest
  | (_, _) :: rest => ifacePaths fmtFloat rest
/-- The leaves below the entries of a `map[string]interface{}`. -/
def stringPaths (fmtFloat : Float64 → GoString) :
    List (GoString × Node) → List (List GoString × GoString)
  | [] => []
  | (k, v) :: rest => underSeg k (leafPaths fmtFloat v) ++ stringPaths fmtFloat rest
end

/-- The value of a decimal digit. -/
def digitVal (c : Char) : Nat :=
  c.toNat - 48

/-- The number a string of decimal digits denotes. -/
def decimalValue (s : GoString) : Nat :=
  s.foldl (fun a c => 10 * a + digitVal c) 0


/-- The document a call decodes: the store hands out a body and the decoder the
extension of the key selects accepts it. -/
def decoded (libs : Libs) (c : Client) (reply : StoreReply) (doc : Node) : Prop :=
  ∃ body, reply = StoreReply.body body ∧
    ((Ext c.key = ".json".toList ∧
        ∃ m, libs.jsonUnmarshal body = Except.ok m ∧ doc = Node.mapString m) ∨
      ((Ext c.key = [] ∨ Ext c.key = ".yml".toList ∨ Ext c.key = ".yaml".toList) ∧
        ∃ m, libs.yamlUnmarshal body = Except.ok m ∧ doc = Node.mapIface m))

/-- The string `s` is the canonical decimal numeral of `n`: a minus sign exactly
for a negative number, then decimal digits that denote the absolute value,
without a leading zero except for zero itself; no fractional part. -/
def canonicalDecimal (n : Int) (s : GoString) : Prop :=
  ∃ digits : GoString,
    s = (if n < 0 then ['-'] else []) ++ digits ∧
      digits ≠ [] ∧
      (∀ c ∈ digits, c ∈ "0123456789".toList) ∧
      decimalValue digits = n.natAbs ∧
      (digits.head? = some '0' → digits = ['0'])

/-- The walk of the scalar `leaf` sets the one entry at its path to `text` and
changes no other entry; walked from the root path into the empty map it yields
the single entry at `/`. -/
def setsOneEntry (fmtFloat : Float64 → GoString) (leaf : Node) (text : GoString) : Prop :=
  (∀ (p : GoString) (vars : Vars), ∃ out, nodeWalk fmtFloat leaf p vars = some out ∧
      ∀ k, mapGet out k = if k = p then some text else mapGet vars k) ∧
    nodeWalk fmtFloat leaf "/".toList [] = some [("/".toList, text)]

/-- The entries the leaves `ps` stand for below the path of elements `segs`: the
rendered path of each leaf with its value. -/
def pathEntries (segs : List GoString) (ps : List (List GoString × GoString)) : Vars :=
  ps.map (fun e => (renderPath (segs ++ e.1), e.2))

/-- The assignments `m[k] = v` for the entries of a list, in order. -/
def assignAll (m : Vars) (es : Vars) : Vars :=
  es.foldl (fun m e => mapSet m e.1 e.2) m

/-! ## Inputs of the examples -/

/-- The bit pattern of the float64 8080. -/
def float8080 : Float64 :=
  ⟨0x40BF900000000000⟩

/-- The JSON document of the specification, as `json.Unmarshal` decodes it into
a `map[string]interface{}`: an object `service` with the number `port` (a
float64) and the boolean `enabled`. -/
def serviceEntries : List (GoString × Node) :=
  [("service".toList,
    Node.mapString [("port".toList, Node.float64 float8080), ("enabled".toList, Node.bool true)])]

/-- Libraries for the examples: the formatter agrees with `strconv.FormatFloat`
on 8080, the only float of the examples; the JSON decoder yields the service
document; the YAML decoder yields the mapping with the one integer key 1. -/
def exampleLibs : Libs where
  fmtFloat := fun f => if f = float8080 then "8080".toList else "0".toList
  jsonUnmarshal := fun _ => Except.ok serviceEntries
  yamlUnmarshal := fun _ => Except.ok [(Node.int 1, Node.str "one".toList)]

/-- A client whose snapshot is the namespace of the specification, taken at the
token `20240101.120000.000`. -/
def exampleFresh : Client where
  bucket := "cfg".toList
  key := "app.json".toList
  vars := [("/a/b".toList, "1".toList), ("/a/c".toList, "2".toList), ("/x".toList, "3".toList)]
  currRevision := "20240101.120000.000".toList
  revision := 1

/-- A client as `NewS3Client` returns it: no snapshot, the zero value for
`currRevision`. -/
def newClient : Client where
  bucket := "cfg".toList
  key := "app.json".toList
  vars := []
  currRevision := []
  revision := 1

/-- A new client whose key has the extension `.txt`. -/
def txtClient : Client where
  bucket := "cfg".toList
  key := "notes.txt".toList
  vars := []
  currRevision := []
  revision := 1

/-- A new client whose key has the extension `.yaml`. -/
def yamlClient : Client where
  bucket := "cfg".toList
  key := "app.yaml".toList
  vars := []
  currRevision := []
  revision := 1

/-- The service document of the specification. -/
def serviceDoc : Node :=
  Node.mapString serviceEntries

/-- A decoded JSON object with the field `a/b` next to the object `a` with the
field `b`: two string leaves. -/
def collidingDoc : Node :=
  Node.mapString [("a/b".toList, Node.str "1".toList),
    ("a".toList, Node.mapString [("b".toList, Node.str "2".toList)])]

/-- The YAML document `1: one` as `yaml.Unmarshal` decodes it: a mapping whose
one key is the integer 1. -/
def integerKeyDoc : Node :=
  Node.mapIface [(Node.int 1, Node.str "one".toList)]

/-! ## WatchPrefix, construction and the revision calls -/

/-- What a receive on `stopChan` finds at one moment: nothing yet, a value that
was sent, or the channel closed. -/
inductive ChanEvent where
  | idle
  | value (b : Bool)
  | closed
deriving DecidableEq, Repr

/-- The receive `<-stopChan` over the successive moments of the channel: the
number of moments it waits before one yields, counted from `waited`; `none`
when no observed moment yields and the receive is still blocked. -/
def awaitStop : List ChanEvent → Nat → Option Nat
  | [], _ => none
  | ChanEvent.idle :: rest, waited => awaitStop rest (waited + 1)
  | _ :: _, waited => some waited

/-- A `WatchPrefix` call seen from outside: the client after it, the pair
`(index, err)` it returned (`none` while it is still blocked), and the number
of moments it waited. -/
structure WatchOutcome where
  client : Client
  ret : Option (Nat × Option Error)
  waited : Nat

/-- Source `(*Client).WatchPrefix(prefix, keys, waitIndex, stopChan)`: receive
from `stopChan`, then return `0, nil`. -/
def WatchPrefix (c : Client) (_pfx : GoString) (_keys : List GoString) (_waitIndex : Nat)
    (stopChan : List ChanEvent) : WatchOutcome :=
  match awaitStop stopChan 0 with
  | none => ⟨c, none, stopChan.length⟩
  | some waited => ⟨c, some (0, none), waited⟩

/-- A call `NewS3Client` makes to the AWS SDK. -/
inductive AwsCall where
  | newSession
  | headBucket (bucket : GoString)
  | headObject (bucket key : GoString)
deriving DecidableEq, Repr

/-- The calls `NewS3Client(bucket, key, revision)` makes to the AWS SDK, in
order, along the same branches as `NewS3Client`. -/
def NewS3ClientCalls (aws : AwsReplies) (bucket key : GoString) : List AwsCall :=
  if bucket = [] then []
  else if key = [] then []
  else
    match aws.newSession with
    | some _ => [AwsCall.newSession]
    | none =>
      match aws.headBucket with
      | some _ => [AwsCall.newSession, AwsCall.headBucket bucket]
      | none =>
        [AwsCall.newSession, AwsCall.headBucket bucket, AwsCall.headObject bucket key]

/-- A reading of the wall clock: the local date and time of `time.Now()`. -/
structure Time where
  year : Nat
  month : Nat
  day : Nat
  hour : Nat
  minute : Nat
  second : Nat
  nanosecond : Nat
deriving DecidableEq, Repr

/-- A number below 100 in two decimal digits, zero-padded. -/
def pad2 (n : Nat) : GoString :=
  [digitChar (n / 10 % 10), digitChar (n % 10)]

/-- A number below 1000 in three decimal digits, zero-padded. -/
def pad3 (n : Nat) : GoString :=
  [digitChar (n / 100 % 10), digitChar (n / 10 % 10), digitChar (n % 10)]

/-- The year as `time.Format` writes it for `2006`: zero-padded to four digits,
longer when the year needs it. -/
def formatYear (y : Nat) : GoString :=
  if y < 10000 then
    [digitChar (y / 1000 % 10), digitChar (y / 100 % 10), digitChar (y / 10 % 10),
      digitChar (y % 10)]
  else natDigits y

/-- Go `t.Format("20060102.150405.000")`: year, month, day, a dot, hour, minute,
second, a dot, and the milliseconds (the nanoseconds truncated). -/
def Format (t : Time) : GoString :=
  formatYear t.year ++ (pad2 t.month ++ (pad2 t.day ++ ('.' :: (pad2 t.hour ++
    (pad2 t.minute ++ (pad2 t.second ++ ('.' :: pad3 (t.nanosecond / 1000000))))))))

/-- Source `(*Revision).Next`, with the clock reading `now` of `time.Now()`: the
token returned and the Revision after the call. -/
def Revision.Next (_r : Revision) (now : Time) : GoString × Revision :=
  (Format now, ⟨Format now⟩)

/-- A call on a Revision. -/
inductive RevCall where
  | next (now : Time)
  | current
deriving DecidableEq, Repr

/-- One call on a Revision: the token it returns and the Revision after it. -/
def Revision.call (r : Revision) : RevCall → GoString × Revision
  | RevCall.next now => r.Next now
  | RevCall.current => (r.Current, r)

/-- A sequence of calls on a Revision: the tokens returned, in order, and the
Revision after the last call. -/
def Revision.run : Revision → List RevCall → List GoString × Revision
  | r, [] => ([], r)
  | r, op :: ops => ((r.call op).1 :: ((r.call op).2.run ops).1, ((r.call op).2.run ops).2)

/-- The calendar order of two clock readings, down to the millisecond. -/
def Time.before (a b : Time) : Prop :=
  a.year < b.year ∨ (a.year = b.year ∧ (a.month < b.month ∨ (a.month = b.month ∧
    (a.day < b.day ∨ (a.day = b.day ∧ (a.hour < b.hour ∨ (a.hour = b.hour ∧
      (a.minute < b.minute ∨ (a.minute = b.minute ∧ (a.second < b.second ∨
        (a.second = b.second ∧
          a.nanosecond / 1000000 < b.nanosecond / 1000000)))))))))))

instance (a b : Time) : Decidable (Time.before a b) := by
  unfold Time.before
  infer_instance

/-- A clock reading with a four-digit year whose other fields fit their digits:
two for the month, day, hour, minute and second, nine for the nanosecond.  Every
reading of a calendar date in the years 0 to 9999 is one. -/
def Time.valid (t : Time) : Prop :=
  t.year < 10000 ∧ t.month < 100 ∧ t.day < 100 ∧ t.hour < 100 ∧ t.minute < 100 ∧
    t.second < 100 ∧ t.nanosecond < 1000000000

instance (t : Time) : Decidable (Time.valid t) := by
  unfold Time.valid
  infer_instance

/-- Go string comparison `a < b`: byte-wise lexicographic. -/
def strLt : GoString → GoString → Bool
  | [], [] => false
  | [], _ :: _ => true
  | _ :: _, [] => false
  | a :: as, b :: bs => decide (a < b) || (decide (a = b) && strLt as bs)

/-- The tokens successive `Next()` calls return for the clock readings `nows`. -/
def nextTokens (r : Revision) (nows : List Time) : List GoString :=
  (r.run (nows.map RevCall.next)).1

/-- First reading of the examples: noon, 1 January 2024. -/
def noon : Time :=
  ⟨2024, 1, 1, 12, 0, 0, 1000⟩

/-- A reading one microsecond after `noon`, in the same millisecond. -/
def noonAndAMicrosecond : Time :=
  ⟨2024, 1, 1, 12, 0, 0, 2000⟩

/-- A reading five minutes after `noon`. -/
def fivePastNoon : Time :=
  ⟨2024, 1, 1, 12, 5, 0, 0⟩

/-! ## The assignments of a walk -/

mutual
/-- The assignments `vars[k] = v` the walk of a node at the path `key` makes, in
the order it makes them: one per scalar leaf, under the key that the calls of
`path.Join` build on the way to it.  An entry whose key is not a string, on
which the walk panics, stands for no assignment. -/
def assignments (fmtFloat : Float64 → GoString) : Node → GoString → Vars
  | .slice elems, key => sliceAssignments fmtFloat elems 0 key
  | .mapIface entries, key => ifaceAssignments fmtFloat entries key
  | .mapString entries, key => stringAssignments fmtFloat entries key
  | .str s, key => [(key, s)]
  | .int n, key => [(key, Itoa n)]
  | .bool b, key => [(key, FormatBool b)]
  | .float64 f, key => [(key, fmtFloat f)]
  | .other, _ => []
/-- The assignments for the elements of a slice, the first having index `i`. -/
def sliceAssignments (fmtFloat : Float64 → GoString) : List Node → Nat → GoString → Vars
  | [], _, _ => []
  | j :: rest, i, key =>
    assignments fmtFloat j (Join key (Itoa (Int.ofNat i)))
      ++ sliceAssignments fmtFloat rest (i + 1) key
/-- The assignments for the entries of a `map[interface{}]interface{}`. -/
def ifaceAssignments (fmtFloat : Float64 → GoString) : List (Node × Node) → GoString → Vars
  | [], _ => []
  | (k, v) :: rest, key =>
    match k with
    | .str name => assignments fmtFloat v (Join key name) ++ ifaceAssignments fmtFloat rest key
    | _ => ifaceAssignments fmtFloat rest key
/-- The assignments for the entries of a `map[string]interface{}`. -/
def stringAssignments (fmtFloat : Float64 → GoString) :
    List (GoString × Node) → GoString → Vars
  | [], _ => []
  | (k, v) :: rest, key =>
    assignments fmtFloat v (Join key k) ++ stringAssignments fmtFloat rest key
end

/-- A decoded JSON object holding an empty array, an empty object and a null. -/
def hollowDoc : Node :=
  Node.mapString [("list".toList, Node.slice []), ("object".toList, Node.mapString []),
    ("nothing".toList, Node.other)]

/-- The cache `vars` was produced by a fetch: some refresh block of `GetValues`
ended with it. -/
def producedByFetch (vars : Vars) : Prop :=
  ∃ (libs : Libs) (c : Client) (reply : StoreReply), fetch libs c reply = Fetched.vars vars

/-- The client of the examples after it fetched the service document at the
token `20240101.120000.000`. -/
def serviceClient : Client where
  bucket := "cfg".toList
  key := "app.json".toList
  vars := [("/service/enabled".toList, "true".toList), ("/service/port".toList, "8080".toList)]
  currRevision := "20240101.120000.000".toList
  revision := 1

/-! ## The backend factory -/

/-- Modelled from the spec: the `Config` type is declared outside the given
sources; these are the configuration parameters `New` reads, under the names it
reads them by (backend kind, node list, TLS material, basic-auth credentials,
separator, document path and the backend-specific extras). -/
structure Config where
  Backend : GoString
  BackendNodes : List GoString
  Scheme : GoString
  ClientCert : GoString
  ClientKey : GoString
  ClientCaKeys : GoString
  ClientInsecure : Bool
  BasicAuth : Bool
  Username : GoString
  Password : GoString
  Separator : GoString
  YAMLFile : List GoString
  Filter : GoString
  AppID : GoString
  UserID : GoString
  RoleID : GoString
  SecretID : GoString
  AuthToken : GoString
  AuthType : GoString
  Path : GoString
  Table : GoString
  Bucket : GoString
  Key : GoString
deriving DecidableEq, Repr

/-- A storage client handed back by `New`: the S3 client of this package, or the
client of one of the other backend packages, known by a handle only. -/
inductive StoreClient where
  | s3 (c : Client)
  | foreign (handle : Nat)
deriving DecidableEq, Repr

/-- A call of a backend constructor, with the arguments `New` passes. -/
inductive Call where
  | consulNew (nodes : List GoString) (scheme cert key caKeys : GoString) (basicAuth : Bool)
      (username password : GoString)
  | etcdNew (nodes : List GoString) (cert key caKeys : GoString)
      (clientInsecure basicAuth : Bool) (username password : GoString)
  | zookeeperNew (nodes : List GoString)
  | redisNew (nodes : List GoString) (clientKey separator : GoString)
  | envNew
  | fileNew (yamlFile : List GoString) (filter : GoString)
  | vaultNew (address authType : GoString) (params : List (GoString × GoString))
  | dynamodbNew (table : GoString)
  | ssmNew
  | s3New (bucket key : GoString) (revision : Nat)
deriving DecidableEq, Repr

/-- What lies outside `New`: the constructors of the other backend packages, each
answering a call with a client or an error, and the AWS replies the S3
constructor meets. -/
structure Backends where
  construct : Call → Except Error StoreClient
  aws : AwsReplies

/-- How a call of `New` ends: it returns `(client, nil)` or `(nil, err)`, or it
panics. -/
inductive NewRet where
  | returned (result : Except Error StoreClient)
  | panicked

/-- A call of `New` seen from outside: the constructor calls it made and how it
ended. -/
structure NewOutcome where
  calls : List Call
  ret : NewRet

/-- The statement `return pkg.New(...)` for a constructor of another package. -/
def invoke (env : Backends) (call : Call) : NewOutcome :=
  ⟨[call], NewRet.returned (env.construct call)⟩

/-- The map literal `vaultConfig` of the vault case. -/
def vaultParams (config : Config) : List (GoString × GoString) :=
  [("app-id".toList, config.AppID), ("user-id".toList, config.UserID),
    ("role-id".toList, config.RoleID), ("secret-id".toList, config.SecretID),
    ("username".toList, config.Username), ("password".toList, config.Password),
    ("token".toList, config.AuthToken), ("cert".toList, config.ClientCert),
    ("key".toList, config.ClientKey), ("caCert".toList, config.ClientCaKeys),
    ("path".toList, config.Path)]

/-- Lines 32-34 of `New`: an empty backend kind is replaced by `etcd`. -/
def withDefaultBackend (config : Config) : Config :=
  if config.Backend = [] then { config with Backend := "etcd".toList } else config

/-- Lines 35-89 of `New`: the switch over the backend kind.  The index
expression `backendNodes[0]` of the vault case panics on an empty node list. -/
def dispatch (env : Backends) (config : Config) (revision : Nat) : NewOutcome :=
  if config.Backend = "consul".toList then
    invoke env (Call.consulNew config.BackendNodes config.Scheme config.ClientCert
      config.ClientKey config.ClientCaKeys config.BasicAuth config.Username config.Password)
  else if config.Backend = "etcd".toList then
    invoke env (Call.etcdNew config.BackendNodes config.ClientCert config.ClientKey
      config.ClientCaKeys config.ClientInsecure config.BasicAuth config.Username
      config.Password)
  else if config.Backend = "zookeeper".toList then
    invoke env (Call.zookeeperNew config.BackendNodes)
  else if config.Backend = "redis".toList then
    invoke env (Call.redisNew config.BackendNodes config.ClientKey config.Separator)
  else if config.Backend = "env".toList then
    invoke env Call.envNew
  else if config.Backend = "file".toList then
    invoke env (Call.fileNew config.YAMLFile config.Filter)
  else if config.Backend = "vault".toList then
    match config.BackendNodes with
    | [] => ⟨[], NewRet.panicked⟩
    | node :: _ => invoke env (Call.vaultNew node config.AuthType (vaultParams config))
  else if config.Backend = "dynamodb".toList then
    invoke env (Call.dynamodbNew config.Table)
  else if config.Backend = "ssm".toList then
    invoke env Call.ssmNew
  else if config.Backend = "s3".toList then
    ⟨[Call.s3New config.Bucket config.Key revision],
      NewRet.returned
        (match NewS3Client env.aws config.Bucket config.Key revision with
          | Except.ok c => Except.ok (StoreClient.s3 c)
          | Except.error e => Except.error e)⟩
  else ⟨[], NewRet.returned (Except.error ⟨"Invalid backend".toList⟩)⟩

/-- Source `backends.New(config, revision)`; `revision` is the pointer handed on
to the S3 constructor. -/
def New (env : Backends) (config : Config) (revision : Nat) : NewOutcome :=
  dispatch env (withDefaultBackend config) revision

/-- The constructor call the table of the specification assigns to the backend
kind of a configuration: `none` for a kind outside the table.  For the kind
`vault` the address is the first node, `node`. -/
def tableCall (config : Config) (revision : Nat) (node : GoString) : Option Call :=
  if config.Backend = "consul".toList then
    some (Call.consulNew config.BackendNodes config.Scheme config.ClientCert config.ClientKey
      config.ClientCaKeys config.BasicAuth config.Username config.Password)
  else if config.Backend = "etcd".toList then
    some (Call.etcdNew config.BackendNodes config.ClientCert config.ClientKey
      config.ClientCaKeys config.ClientInsecure config.BasicAuth config.Username
      config.Password)
  else if config.Backend = "zookeeper".toList then some (Call.zookeeperNew config.BackendNodes)
  else if config.Backend = "redis".toList then
    some (Call.redisNew config.BackendNodes config.ClientKey config.Separator)
  else if config.Backend = "env".toList then some Call.envNew
  else if config.Backend = "file".toList then
    some (Call.fileNew config.YAMLFile config.Filter)
  else if config.Backend = "vault".toList then
    some (Call.vaultNew node config.AuthType (vaultParams config))
  else if config.Backend = "dynamodb".toList then some (Call.dynamodbNew config.Table)
  else if config.Backend = "ssm".toList then some Call.ssmNew
  else if config.Backend = "s3".toList then
    some (Call.s3New config.Bucket config.Key revision)
  else none

/-- A configuration with every parameter empty. -/
def emptyConfig : Config :=
  ⟨[], [], [], [], [], [], false, false, [], [], [], [], [], [], [], [], [], [], [], [], [], [],
    []⟩

/-- A vault configuration with token authentication and no node. -/
def vaultNoNodes : Config :=
  { emptyConfig with
    Backend := "vault".toList
    AuthType := "token".toList
    AuthToken := "s.secret".toList }

/-- A vault configuration with app-role authentication and no node. -/
def vaultAppRoleNoNodes : Config :=
  { emptyConfig with
    Backend := "vault".toList
    AuthType := "app-role".toList
    RoleID := "role".toList
    SecretID := "secret".toList }

/-- A vault configuration with one node. -/
def vaultOneNode : Config :=
  { emptyConfig with
    Backend := "vault".toList
    AuthType := "token".toList
    BackendNodes := ["http://127.0.0.1:8200".toList] }

/-- A configuration with an unknown backend kind. -/
def bogusConfig : Config :=
  { emptyConfig with Backend := "bogus".toList }

/-- Backends for the examples: every other constructor succeeds with the client
of handle 7, and the AWS calls succeed. -/
def exampleBackends : Backends where
  construct := fun _ => Except.ok (StoreClient.foreign 7)
  aws := ⟨none, none, none⟩

/-! ## Visiting orders -/

/-- Two decoded documents are the same Go value visited in different orders: the
entries of any object, at any depth, may be listed in any order.  The elements
of an array keep their order. -/
inductive Reordered : Node → Node → Prop where
  | same (n : Node) : Reordered n n
  | step {a b c : Node} : Reordered a b → Reordered b c → Reordered a c
  | permString {es fs : List (GoString × Node)} :
      es.Perm fs → Reordered (Node.mapString es) (Node.mapString fs)
  | permIface {es fs : List (Node × Node)} :
      es.Perm fs → Reordered (Node.mapIface es) (Node.mapIface fs)
  | inString (pre post : List (GoString × Node)) (k : GoString) {v w : Node} :
      Reordered v w →
        Reordered (Node.mapString (pre ++ (k, v) :: post)) (Node.mapString (pre ++ (k, w) :: post))
  | inIface (pre post : List (Node × Node)) (k : Node) {v w : Node} :
      Reordered v w →
        Reordered (Node.mapIface (pre ++ (k, v) :: post)) (Node.mapIface (pre ++ (k, w) :: post))
  | inSlice (pre post : List Node) {v w : Node} :
      Reordered v w → Reordered (Node.slice (pre ++ v :: post)) (Node.slice (pre ++ w :: post))

/-- The cleaned path of every scalar leaf of a document walked from the path
`p`, in visiting order. -/
def cleanedPaths (fmtFloat : Float64 → GoString) (D : Node) (p : GoString) : List GoString :=
  mapKeys (assignments fmtFloat D p)

/-- The service document with the two fields of `service` in the other order. -/
def serviceDocSwapped : Node :=
  Node.mapString [("service".toList,
    Node.mapString [("enabled".toList, Node.bool true), ("port".toList, Node.float64 float8080)])]

/-! ## Lemmas on maps -/

theorem mapGet_filter_ne (m : Vars) (k k1 : GoString) :
    mapGet (m.filter (fun e => !decide (e.1 = k))) k1 = if k1 = k then none else mapGet m k1 := by
  induction m with
  | nil => simp [mapGet]
  | cons e m ih =>
    obtain ⟨a, b⟩ := e
    by_cases hak : a = k
    · subst hak
      by_cases h1 : k1 = a
      · subst h1
        simpa [List.filter_cons] using ih
      · simp [List.filter_cons, ih, h1, mapGet]
    · by_cases h1 : k1 = k
      · subst h1
        have h2 : ¬ k1 = a := fun h => hak h.symm
        simp [List.filter_cons, hak, mapGet, ih, h2]
      · simp [List.filter_cons, hak, mapGet, ih, h1]

theorem mapGet_mapSet (m : Vars) (k v k1 : GoString) :
    mapGet (mapSet m k v) k1 = if k1 = k then some v else mapGet m k1 := by
  by_cases h : k1 = k
  · simp [mapSet, mapGet, h]
  · simp [mapSet, mapGet, h, mapGet_filter_ne]

theorem mapGet_isSome_iff (m : Vars) (k : GoString) :
    (mapGet m k).isSome ↔ k ∈ mapKeys m := by
  induction m with
  | nil => simp [mapGet, mapKeys]
  | cons e m ih =>
    obtain ⟨a, b⟩ := e
    by_cases h : k = a
    · simp [mapGet, mapKeys, h]
    · simp only [mapKeys] at ih
      simp [mapGet, mapKeys, h, ih]

theorem mapGet_eq_some_mem (m : Vars) (k v : GoString) (h : mapGet m k = some v) :
    (k, v) ∈ m := by
  induction m with
  | nil => simp [mapGet] at h
  | cons e m ih =>
    obtain ⟨a, b⟩ := e
    by_cases hk : k = a
    · simp [mapGet, hk] at h
      simp [hk, h]
    · simp [mapGet, hk] at h
      exact List.mem_cons_of_mem _ (ih h)

theorem mapKeys_mapSet (m : Vars) (k v : GoString) :
    mapKeys (mapSet m k v) = k :: (mapKeys m).filter (fun a => !decide (a = k)) := by
  simp [mapKeys, mapSet, List.filter_map, Function.comp_def]

theorem mapKeys_mapSet_nodup (m : Vars) (k v : GoString) (h : (mapKeys m).Nodup) :
    (mapKeys (mapSet m k v)).Nodup := by
  rw [mapKeys_mapSet]
  refine List.nodup_cons.mpr ⟨?_, h.filter _⟩
  simp [List.mem_filter]

theorem mapSet_length_of_not_mem (m : Vars) (k v : GoString) (h : k ∉ mapKeys m) :
    (mapSet m k v).length = m.length + 1 := by
  have : m.filter (fun e => !decide (e.1 = k)) = m := by
    apply List.filter_eq_self.mpr
    intro e he
    have : e.1 ≠ k := fun hk => h (hk ▸ List.mem_map_of_mem Prod.fst he)
    simpa using this
  rw [mapSet, this, List.length_cons]

theorem hasPrefix_iff (s pre : GoString) : HasPrefix s pre = true ↔ pre <+: s := by
  simp [HasPrefix]

/-! ## The prefix filter -/

/-- The inner loop of the filter, for one key `k` of the cache. -/
theorem mapGet_filter_inner (k val : GoString) (keys : List GoString) (out : Vars)
    (k1 : GoString) :
    mapGet (keys.foldl (fun out key => if HasPrefix k key then mapSet out k val else out) out) k1
      = if k1 = k ∧ ∃ key ∈ keys, HasPrefix k key = true then some val else mapGet out k1 := by
  induction keys generalizing out with
  | nil => simp
  | cons key keys ih =>
    rw [List.foldl_cons, ih]
    by_cases hp : HasPrefix k key = true
    · by_cases h1 : k1 = k
      · simp [hp, h1, mapGet_mapSet]
      · simp [hp, h1, mapGet_mapSet]
    · simp [hp]

theorem mapKeys_filter_inner_nodup (k val : GoString) (keys : List GoString) (out : Vars)
    (h : (mapKeys out).Nodup) :
    (mapKeys (keys.foldl (fun out key => if HasPrefix k key then mapSet out k val else out)
      out)).Nodup := by
  induction keys generalizing out with
  | nil => simpa using h
  | cons key keys ih =>
    rw [List.foldl_cons]
    apply ih
    split
    · exact mapKeys_mapSet_nodup _ _ _ h
    · exact h

/-- The outer loop of the filter over the keys `ks` of the cache. -/
theorem mapGet_filter_outer (vars : Vars) (keys ks : List GoString) (out : Vars)
    (k1 : GoString) :
    mapGet (ks.foldl
        (fun out k =>
          keys.foldl (fun out key => if HasPrefix k key then mapSet out k (mapIndex vars k) else out)
            out) out) k1
      = if k1 ∈ ks ∧ ∃ key ∈ keys, HasPrefix k1 key = true then some (mapIndex vars k1)
        else mapGet out k1 := by
  induction ks generalizing out with
  | nil => simp
  | cons k ks ih =>
    rw [List.foldl_cons, ih, mapGet_filter_inner]
    by_cases h1 : k1 = k
    · subst h1
      by_cases hp : ∃ key ∈ keys, HasPrefix k1 key = true
      · simp [hp]
      · simp [hp]
    · by_cases hm : k1 ∈ ks
      · simp [h1, hm]
      · simp [h1, hm]

theorem mapKeys_filterVars_nodup (vars : Vars) (keys : List GoString) :
    (mapKeys (filterVars vars keys)).Nodup := by
  unfold filterVars
  suffices h : ∀ (ks : List GoString) (out : Vars), (mapKeys out).Nodup →
      (mapKeys (ks.foldl
        (fun out k =>
          keys.foldl (fun out key => if HasPrefix k key then mapSet out k (mapIndex vars k) else out)
            out) out)).Nodup from h _ _ (by simp [mapKeys])
  intro ks
  induction ks with
  | nil => intro out h; simpa using h
  | cons k ks ih =>
    intro out h
    rw [List.foldl_cons]
    exact ih _ (mapKeys_filter_inner_nodup _ _ _ _ h)

/-- The filter keeps exactly the cached entries whose key has a requested key as
a plain prefix. -/
theorem mapGet_filterVars (vars : Vars) (keys : List GoString) (k v : GoString) :
    mapGet (filterVars vars keys) k = some v ↔
      mapGet vars k = some v ∧ ∃ key ∈ keys, key <+: k := by
  unfold filterVars
  rw [mapGet_filter_outer]
  simp only [hasPrefix_iff]
  by_cases hp : ∃ key ∈ keys, key <+: k
  · by_cases hm : k ∈ mapKeys vars
    · have hs := (mapGet_isSome_iff vars k).mpr hm
      obtain ⟨w, hw⟩ := Option.isSome_iff_exists.mp hs
      simp [hm, hp, mapIndex, hw]
    · have hn : mapGet vars k = none := by
        cases h : mapGet vars k with
        | none => rfl
        | some w => exact absurd ((mapGet_isSome_iff vars k).mp (by simp [h])) hm
      simp [hm, hn, mapGet]
  · simp [hp, mapGet]


/-! ## C1: the prefix filter of GetValues -/

/-- C1: a successful `GetValues(keys)` returns exactly the entries of the cache,
as it stands after the refresh step of the call, whose key has at least one of
the supplied keys as a plain string prefix, each with its cached value and each
once, and nothing else. -/
theorem GetValues_returns_prefix_matches (libs : Libs) (c : Client) (r : Revision)
    (reply : StoreReply) (keys : List GoString) (result : Vars)
    (h : (GetValues libs c r reply keys).ret = Ret.ok result) :
    (mapKeys result).Nodup ∧
      ∀ k v, mapGet result k = some v ↔
        (mapGet (GetValues libs c r reply keys).client.vars k = some v ∧
          ∃ key ∈ keys, key <+: k) := by
  unfold GetValues at h ⊢
  by_cases hrev : c.currRevision = r.Current
  · simp only [hrev, ne_eq, not_true_eq_false, ↓reduceIte] at h ⊢
    injection h with h
    subst h
    exact ⟨mapKeys_filterVars_nodup _ _, fun k v => mapGet_filterVars _ _ k v⟩
  · simp only [ne_eq, hrev, not_false_eq_true, ↓reduceIte] at h ⊢
    cases hf : fetch libs c reply with
    | err e => simp [hf] at h
    | panicked => simp [hf] at h
    | vars vars =>
      simp only [hf] at h ⊢
      injection h with h
      subst h
      exact ⟨mapKeys_filterVars_nodup _ _, fun k v => mapGet_filterVars _ _ k v⟩

/-- Witness of C1: with the cache of the specification and the request `/a` the
result is the two entries below `/a`; with `/ab/c` cached as well, that entry is
returned too, the comparison being a plain prefix test. -/
theorem GetValues_returns_prefix_matches_witness :
    (GetValues exampleLibs exampleFresh ⟨"20240101.120000.000".toList⟩
        (StoreReply.body []) ["/a".toList]).ret
        = Ret.ok [("/a/c".toList, "2".toList), ("/a/b".toList, "1".toList)] ∧
      filterVars (("/ab/c".toList, "4".toList) :: exampleFresh.vars) ["/a".toList]
        = [("/a/c".toList, "2".toList), ("/a/b".toList, "1".toList),
            ("/ab/c".toList, "4".toList)] ∧
      ((mapKeys [("/a/c".toList, "2".toList), ("/a/b".toList, "1".toList)]).Nodup ∧
        ∀ k v, mapGet [("/a/c".toList, "2".toList), ("/a/b".toList, "1".toList)] k = some v ↔
          (mapGet (GetValues exampleLibs exampleFresh ⟨"20240101.120000.000".toList⟩
              (StoreReply.body []) ["/a".toList]).client.vars k = some v ∧
            ∃ key ∈ ["/a".toList], key <+: k)) :=
  ⟨by decide, by decide,
    GetValues_returns_prefix_matches exampleLibs exampleFresh ⟨"20240101.120000.000".toList⟩
      (StoreReply.body []) ["/a".toList] _ (by decide)⟩

/-! ## C4 to C8: the cache of GetValues -/

theorem GetValues_fresh (libs : Libs) (c : Client) (r : Revision) (reply : StoreReply)
    (keys : List GoString) (h : c.currRevision = r.Current) :
    GetValues libs c r reply keys = ⟨c, Ret.ok (filterVars c.vars keys), 0⟩ := by
  simp [GetValues, h]

theorem GetValues_stale (libs : Libs) (c : Client) (r : Revision) (reply : StoreReply)
    (keys : List GoString) (h : c.currRevision ≠ r.Current) :
    GetValues libs c r reply keys =
      match fetch libs c reply with
      | Fetched.err e => ⟨c, Ret.err e, 1⟩
      | Fetched.panicked => ⟨c, Ret.panicked, 1⟩
      | Fetched.vars vars =>
        ⟨{ c with vars := vars, currRevision := r.Current }, Ret.ok (filterVars vars keys), 1⟩ := by
  simp [GetValues, h]

/-- C5: a `GetValues` call issues exactly one `GetObject` call when the stored
`currRevision` differs from the token `revision.Current()` returns at the start
of the call, and none when they are equal; in the equal case the client is left
as it was and the result is the filter of the cached namespace, whatever the
store and the decoders would have answered. -/
theorem GetValues_fetches_iff_token_differs (libs : Libs) (c : Client) (r : Revision)
    (reply : StoreReply) (keys : List GoString) :
    (c.currRevision ≠ r.Current → (GetValues libs c r reply keys).getObjectCalls = 1) ∧
      (c.currRevision = r.Current →
        (GetValues libs c r reply keys).getObjectCalls = 0 ∧
          (GetValues libs c r reply keys).client = c ∧
          (GetValues libs c r reply keys).ret = Ret.ok (filterVars c.vars keys)) := by
  constructor
  · intro h
    rw [GetValues_stale libs c r reply keys h]
    cases fetch libs c reply <;> rfl
  · intro h
    rw [GetValues_fresh libs c r reply keys h]
    exact ⟨rfl, rfl, rfl⟩

/-- Witness of C5: the client of the examples is asked once at a new token and
once at the token of its snapshot. -/
theorem GetValues_fetches_iff_token_differs_witness :
    (GetValues exampleLibs exampleFresh ⟨"20240101.120500.000".toList⟩
        (StoreReply.body []) ["/a".toList]).getObjectCalls = 1 ∧
      ((GetValues exampleLibs exampleFresh ⟨"20240101.120000.000".toList⟩
          (StoreReply.body []) ["/a".toList]).getObjectCalls = 0 ∧
        (GetValues exampleLibs exampleFresh ⟨"20240101.120000.000".toList⟩
          (StoreReply.body []) ["/a".toList]).client = exampleFresh ∧
        (GetValues exampleLibs exampleFresh ⟨"20240101.120000.000".toList⟩
          (StoreReply.body []) ["/a".toList]).ret
          = Ret.ok (filterVars exampleFresh.vars ["/a".toList])) :=
  ⟨(GetValues_fetches_iff_token_differs exampleLibs exampleFresh
      ⟨"20240101.120500.000".toList⟩ (StoreReply.body []) ["/a".toList]).1 (by decide),
    (GetValues_fetches_iff_token_differs exampleLibs exampleFresh
      ⟨"20240101.120000.000".toList⟩ (StoreReply.body []) ["/a".toList]).2 (by decide)⟩

theorem fetch_body (libs : Libs) (c : Client) (body : GoString) :
    fetch libs c (StoreReply.body body) =
      if Ext c.key = ".json".toList then
        match libs.jsonUnmarshal body with
        | Except.error e => Fetched.err e
        | Except.ok fileMap =>
          match nodeWalk libs.fmtFloat (Node.mapString fileMap) "/".toList [] with
          | none => Fetched.panicked
          | some vars => Fetched.vars vars
      else if Ext c.key = [] ∨ Ext c.key = ".yml".toList ∨ Ext c.key = ".yaml".toList then
        match libs.yamlUnmarshal body with
        | Except.error e => Fetched.err e
        | Except.ok fileMap =>
          match nodeWalk libs.fmtFloat (Node.mapIface fileMap) "/".toList [] with
          | none => Fetched.panicked
          | some vars => Fetched.vars vars
      else Fetched.err invalidExtension :=
  rfl

theorem fetch_vars_decoded (libs : Libs) (c : Client) (reply : StoreReply) (vars : Vars)
    (h : fetch libs c reply = Fetched.vars vars) :
    ∃ doc, decoded libs c reply doc ∧ nodeWalk libs.fmtFloat doc "/".toList [] = some vars := by
  cases reply with
  | getObjectErr e => cases h
  | readAllErr e => cases h
  | body body =>
    rw [fetch_body] at h
    generalize "/".toList = root at h ⊢
    split at h
    · rename_i hjson
      split at h
      · cases h
      · rename_i m hj
        split at h
        · cases h
        · rename_i out hw
          cases h
          exact ⟨Node.mapString m, ⟨body, rfl, Or.inl ⟨hjson, m, hj, rfl⟩⟩, hw⟩
    · split at h
      · rename_i hyaml
        split at h
        · cases h
        · rename_i m hy
          split at h
          · cases h
          · rename_i out hw
            cases h
            exact ⟨Node.mapIface m, ⟨body, rfl, Or.inr ⟨hyaml, m, hy, rfl⟩⟩, hw⟩
      · cases h

theorem fetch_unknown_extension (libs : Libs) (c : Client) (body : GoString)
    (hext : Ext c.key ≠ ".json".toList ∧ Ext c.key ≠ [] ∧ Ext c.key ≠ ".yml".toList ∧
      Ext c.key ≠ ".yaml".toList) :
    fetch libs c (StoreReply.body body) = Fetched.err invalidExtension := by
  obtain ⟨h1, h2, h3, h4⟩ := hext
  rw [fetch_body, if_neg h1, if_neg]
  rintro (h | h | h)
  · exact h2 h
  · exact h3 h
  · exact h4 h

/-- C6: every `GetValues` call either leaves `vars` and `currRevision` as they
were (the token is unchanged, or the call ends with an error or a panic), or
replaces both together: `currRevision` becomes the token read at the start of
the call and `vars` the flattening, rooted at `/`, of the document just decoded.
It never changes one of the two without the other. -/
theorem GetValues_replaces_cache_as_a_unit (libs : Libs) (c : Client) (r : Revision)
    (reply : StoreReply) (keys : List GoString) :
    ((GetValues libs c r reply keys).client = c ∧
        (c.currRevision = r.Current ∨
          (∃ e, (GetValues libs c r reply keys).ret = Ret.err e) ∨
          (GetValues libs c r reply keys).ret = Ret.panicked)) ∨
      (c.currRevision ≠ r.Current ∧
        (∃ m, (GetValues libs c r reply keys).ret = Ret.ok m) ∧
        (GetValues libs c r reply keys).client.currRevision = r.Current ∧
        (∃ doc, decoded libs c reply doc ∧
          nodeWalk libs.fmtFloat doc "/".toList []
            = some (GetValues libs c r reply keys).client.vars) ∧
        (GetValues libs c r reply keys).client.bucket = c.bucket ∧
        (GetValues libs c r reply keys).client.key = c.key ∧
        (GetValues libs c r reply keys).client.revision = c.revision) := by
  by_cases h : c.currRevision = r.Current
  · left
    rw [GetValues_fresh libs c r reply keys h]
    exact ⟨rfl, Or.inl h⟩
  · rw [GetValues_stale libs c r reply keys h]
    cases hf : fetch libs c reply with
    | err e => exact Or.inl ⟨rfl, Or.inr (Or.inl ⟨e, rfl⟩)⟩
    | panicked => exact Or.inl ⟨rfl, Or.inr (Or.inr rfl)⟩
    | vars vars =>
      right
      exact ⟨h, ⟨_, rfl⟩, rfl, fetch_vars_decoded libs c reply vars hf, rfl, rfl, rfl⟩

/-- The rejection of an unsupported extension where the refresh block is
entered: for a client whose key has an extension other than `.json`, the empty
one, `.yml` and `.yaml`, a `GetValues` call made while the stored `currRevision`
differs from the current token returns an error and no map, and leaves the
client, its cached `vars` and `currRevision` included, untouched. -/
theorem GetValues_rejects_unknown_extension (libs : Libs) (c : Client) (r : Revision)
    (reply : StoreReply) (keys : List GoString)
    (hext : Ext c.key ≠ ".json".toList ∧ Ext c.key ≠ [] ∧ Ext c.key ≠ ".yml".toList ∧
      Ext c.key ≠ ".yaml".toList)
    (hstale : c.currRevision ≠ r.Current) :
    (∃ e, (GetValues libs c r reply keys).ret = Ret.err e) ∧
      (GetValues libs c r reply keys).client = c := by
  rw [GetValues_stale libs c r reply keys hstale]
  cases reply with
  | getObjectErr e => exact ⟨⟨e, rfl⟩, rfl⟩
  | readAllErr e => exact ⟨⟨e, rfl⟩, rfl⟩
  | body body =>
    rw [fetch_unknown_extension libs c body hext]
    exact ⟨⟨invalidExtension, rfl⟩, rfl⟩

/-- The rejection at work: the `.txt` client at a token it has not seen. -/
theorem GetValues_rejects_unknown_extension_at_new_token :
    (Ext txtClient.key = ".txt".toList ∧ txtClient.currRevision ≠ "20240101.120000.000".toList) ∧
      ((∃ e, (GetValues exampleLibs txtClient ⟨"20240101.120000.000".toList⟩
          (StoreReply.body []) ["/".toList]).ret = Ret.err e) ∧
        (GetValues exampleLibs txtClient ⟨"20240101.120000.000".toList⟩
          (StoreReply.body []) ["/".toList]).client = txtClient) :=
  ⟨by decide,
    GetValues_rejects_unknown_extension exampleLibs txtClient ⟨"20240101.120000.000".toList⟩
      (StoreReply.body []) ["/".toList] (by decide) (by decide)⟩

theorem NewS3Client_currRevision (aws : AwsReplies) (bucket key : GoString) (revision : Nat)
    (c : Client) (hnew : NewS3Client aws bucket key revision = Except.ok c) :
    c.key = key ∧ c.currRevision = [] := by
  unfold NewS3Client at hnew
  split at hnew
  · cases hnew
  · split at hnew
    · cases hnew
    · split at hnew
      · cases hnew
      · split at hnew
        · cases hnew
        · split at hnew
          · cases hnew
          · cases hnew
            exact ⟨rfl, rfl⟩

/-- A client as `NewS3Client` returns it, with a key of unsupported extension,
is refused at every token but the empty one: the call returns an error and no
map and leaves the client untouched. -/
theorem GetValues_new_client_unknown_extension (libs : Libs) (aws : AwsReplies)
    (bucket key : GoString) (revision : Nat) (c : Client) (r : Revision) (reply : StoreReply)
    (keys : List GoString) (hnew : NewS3Client aws bucket key revision = Except.ok c)
    (hext : Ext key ≠ ".json".toList ∧ Ext key ≠ [] ∧ Ext key ≠ ".yml".toList ∧
      Ext key ≠ ".yaml".toList)
    (htoken : r.Current ≠ []) :
    (∃ e, (GetValues libs c r reply keys).ret = Ret.err e) ∧
      (GetValues libs c r reply keys).client = c := by
  obtain ⟨hkey, hrev⟩ := NewS3Client_currRevision aws bucket key revision c hnew
  apply GetValues_rejects_unknown_extension libs c r reply keys
  · rw [hkey]
    exact hext
  · rw [hrev]
    exact fun h => htoken h.symm

/-- C7, at the failing input: the client `NewS3Client` returns for the key
`notes.txt`, asked while the Revision still holds the token it has before
`Next` is first called, issues no `GetObject` call, never reaches the check of
the extension, and returns the empty map with no error. -/
theorem GetValues_unknown_extension_at_empty_token :
    NewS3Client ⟨none, none, none⟩ "cfg".toList "notes.txt".toList 1 = Except.ok txtClient ∧
      Ext txtClient.key = ".txt".toList ∧
      (GetValues exampleLibs txtClient ⟨[]⟩ (StoreReply.body []) ["/".toList]).getObjectCalls
        = 0 ∧
      (GetValues exampleLibs txtClient ⟨[]⟩ (StoreReply.body []) ["/".toList]).ret = Ret.ok [] ∧
      ¬ ∃ e, (GetValues exampleLibs txtClient ⟨[]⟩ (StoreReply.body []) ["/".toList]).ret
        = Ret.err e := by
  refine ⟨rfl, by decide, by decide, by decide, ?_⟩
  rintro ⟨e, he⟩
  have h : (GetValues exampleLibs txtClient ⟨[]⟩ (StoreReply.body []) ["/".toList]).ret
      = Ret.ok [] := by decide
  rw [h] at he
  cases he

/-- After a call that returned a map, the client is at the current token and a
second call with no `Next()` in between finds it fresh: it issues no `GetObject`
call and returns the same map, whatever the store would answer. -/
theorem GetValues_twice_after_success (libs : Libs) (c : Client) (r : Revision)
    (reply1 reply2 : StoreReply) (keys : List GoString) (m : Vars)
    (h : (GetValues libs c r reply1 keys).ret = Ret.ok m) :
    (GetValues libs (GetValues libs c r reply1 keys).client r reply2 keys).ret = Ret.ok m ∧
      (GetValues libs (GetValues libs c r reply1 keys).client r reply2 keys).getObjectCalls = 0 := by
  by_cases hrev : c.currRevision = r.Current
  · rw [GetValues_fresh libs c r reply1 keys hrev] at h ⊢
    rw [GetValues_fresh libs c r reply2 keys hrev]
    exact ⟨h, rfl⟩
  · rw [GetValues_stale libs c r reply1 keys hrev] at h ⊢
    cases hf : fetch libs c reply1 with
    | err e => rw [hf] at h; cases h
    | panicked => rw [hf] at h; cases h
    | vars vars =>
      rw [hf] at h
      simp only at h ⊢
      rw [GetValues_fresh libs _ r reply2 keys rfl]
      exact ⟨h, rfl⟩

/-- C4, at the failing input: a new client at one token, two consecutive calls,
the store failing the first `GetObject` and serving the second.  The two calls
issue two `GetObject` calls within one revision and return different results. -/
theorem GetValues_twice_after_failure :
    (GetValues exampleLibs newClient ⟨"20240101.120000.000".toList⟩
        (StoreReply.getObjectErr ⟨"RequestTimeout".toList⟩) ["/service".toList]).getObjectCalls
      + (GetValues exampleLibs
          (GetValues exampleLibs newClient ⟨"20240101.120000.000".toList⟩
            (StoreReply.getObjectErr ⟨"RequestTimeout".toList⟩) ["/service".toList]).client
          ⟨"20240101.120000.000".toList⟩ (StoreReply.body []) ["/service".toList]).getObjectCalls
      = 2 ∧
    (GetValues exampleLibs newClient ⟨"20240101.120000.000".toList⟩
        (StoreReply.getObjectErr ⟨"RequestTimeout".toList⟩) ["/service".toList]).ret
      = Ret.err ⟨"RequestTimeout".toList⟩ ∧
    (GetValues exampleLibs
        (GetValues exampleLibs newClient ⟨"20240101.120000.000".toList⟩
          (StoreReply.getObjectErr ⟨"RequestTimeout".toList⟩) ["/service".toList]).client
        ⟨"20240101.120000.000".toList⟩ (StoreReply.body []) ["/service".toList]).ret
      = Ret.ok [("/service/port".toList, "8080".toList),
          ("/service/enabled".toList, "true".toList)] := by
  refine ⟨by decide, by decide, by decide⟩

/-- A client as `NewS3Client` returns it fetches on its first call at every
token but the empty one. -/
theorem GetValues_new_client_fetches (libs : Libs) (aws : AwsReplies) (bucket key : GoString)
    (revision : Nat) (c : Client) (r : Revision) (reply : StoreReply) (keys : List GoString)
    (hnew : NewS3Client aws bucket key revision = Except.ok c) (htoken : r.Current ≠ []) :
    (GetValues libs c r reply keys).getObjectCalls = 1 := by
  have hc : c.currRevision = [] := by
    unfold NewS3Client at hnew
    split at hnew
    · cases hnew
    · split at hnew
      · cases hnew
      · split at hnew
        · cases hnew
        · split at hnew
          · cases hnew
          · split at hnew
            · cases hnew
            · cases hnew; rfl
  have hstale : c.currRevision ≠ r.Current := by
    rw [hc]
    exact fun h => htoken h.symm
  rw [GetValues_stale libs c r reply keys hstale]
  cases fetch libs c reply <;> rfl

/-- C8, at the failing input: the client `NewS3Client` returns, asked while the
Revision still holds the token it has before `Next` is first called, issues no
`GetObject` call and returns the empty map with no error. -/
theorem GetValues_new_client_empty_token :
    NewS3Client ⟨none, none, none⟩ "cfg".toList "app.json".toList 1 = Except.ok newClient ∧
      (GetValues exampleLibs newClient ⟨[]⟩ (StoreReply.body []) ["/".toList]).getObjectCalls = 0 ∧
      (GetValues exampleLibs newClient ⟨[]⟩ (StoreReply.body []) ["/".toList]).ret = Ret.ok [] :=
  ⟨rfl, by decide, by decide⟩

/-! ## Decimal numerals -/

theorem digitChar_mem (d : Nat) : digitChar d ∈ "0123456789".toList := by
  unfold digitChar
  split <;> decide

theorem digitVal_digitChar (d : Nat) (h : d < 10) : digitVal (digitChar d) = d := by
  interval_cases d <;> rfl

theorem digitChar_ne_zero (d : Nat) (h0 : 0 < d) : digitChar d ≠ '0' := by
  unfold digitChar
  split <;> first | omega | decide

theorem decimalValue_append (s : GoString) (c : Char) :
    decimalValue (s ++ [c]) = 10 * decimalValue s + digitVal c := by
  simp [decimalValue, List.foldl_append]

theorem natDigitsFuel_ne_nil (fuel n : Nat) : natDigitsFuel (fuel + 1) n ≠ [] := by
  unfold natDigitsFuel
  split <;> simp

theorem natDigitsFuel_mem (fuel n : Nat) :
    ∀ c ∈ natDigitsFuel fuel n, c ∈ "0123456789".toList := by
  induction fuel generalizing n with
  | zero => simp [natDigitsFuel]
  | succ fuel ih =>
    intro c hc
    unfold natDigitsFuel at hc
    split at hc
    · rw [List.mem_singleton] at hc
      exact hc ▸ digitChar_mem n
    · rcases List.mem_append.mp hc with h | h
      · exact ih _ c h
      · rw [List.mem_singleton] at h
        exact h ▸ digitChar_mem _

theorem decimalValue_natDigitsFuel (fuel n : Nat) (h : n < fuel) :
    decimalValue (natDigitsFuel fuel n) = n := by
  induction fuel generalizing n with
  | zero => omega
  | succ fuel ih =>
    unfold natDigitsFuel
    split
    · rename_i hn
      simp [decimalValue, digitVal_digitChar n hn]
    · rename_i hn
      rw [decimalValue_append, ih (n / 10) (by omega),
        digitVal_digitChar _ (Nat.mod_lt _ (by decide))]
      omega

theorem natDigitsFuel_head (fuel n : Nat) (h : n < fuel) (h0 : 0 < n) :
    (natDigitsFuel fuel n).head? ≠ some '0' := by
  induction fuel generalizing n with
  | zero => omega
  | succ fuel ih =>
    unfold natDigitsFuel
    split
    · simpa using digitChar_ne_zero n h0
    · rename_i hn
      have hlt : n / 10 < fuel := by omega
      have hpos : 0 < n / 10 := by omega
      have hne : natDigitsFuel fuel (n / 10) ≠ [] := by
        cases fuel with
        | zero => omega
        | succ f => exact natDigitsFuel_ne_nil f _
      rw [List.head?_append_of_ne_nil _ hne]
      exact ih _ hlt hpos

theorem natDigits_ne_nil (n : Nat) : natDigits n ≠ [] :=
  natDigitsFuel_ne_nil n n

theorem natDigits_mem (n : Nat) : ∀ c ∈ natDigits n, c ∈ "0123456789".toList :=
  natDigitsFuel_mem (n + 1) n

theorem decimalValue_natDigits (n : Nat) : decimalValue (natDigits n) = n :=
  decimalValue_natDigitsFuel (n + 1) n (Nat.lt_succ_self n)

theorem natDigits_injective : Function.Injective natDigits := by
  intro a b h
  rw [← decimalValue_natDigits a, ← decimalValue_natDigits b, h]

theorem natDigits_head (n : Nat) (h : (natDigits n).head? = some '0') : natDigits n = ['0'] := by
  rcases Nat.eq_zero_or_pos n with h0 | h0
  · subst h0
    rfl
  · exact absurd h (natDigitsFuel_head (n + 1) n (Nat.lt_succ_self n) h0)

theorem Itoa_canonical (n : Int) : canonicalDecimal n (Itoa n) := by
  cases n with
  | ofNat m =>
    refine ⟨natDigits m, ?_, natDigits_ne_nil m, natDigits_mem m, ?_, natDigits_head m⟩
    · have : ¬ (Int.ofNat m < 0) := by simp
      simp [Itoa, this]
    · simpa using decimalValue_natDigits m
  | negSucc m =>
    refine ⟨natDigits (m + 1), ?_, natDigits_ne_nil _, natDigits_mem _, ?_, natDigits_head _⟩
    · have : Int.negSucc m < 0 := Int.negSucc_lt_zero m
      simp [Itoa, this]
    · rw [decimalValue_natDigits]
      rfl

/-! ## C10: scalars -/

theorem setsOneEntry_of_eq (fmtFloat : Float64 → GoString) (leaf : Node) (text : GoString)
    (h : ∀ p vars, nodeWalk fmtFloat leaf p vars = some (mapSet vars p text)) :
    setsOneEntry fmtFloat leaf text := by
  refine ⟨fun p vars => ⟨_, h p vars, fun k => mapGet_mapSet vars p text k⟩, ?_⟩
  rw [h]
  rfl

/-- C10: for every path `p` and map `vars`, the walk of a scalar sets exactly the
entry `vars[p]` and changes no other: to the string itself for a string, to
`true` or `false` for a boolean, to the canonical decimal numeral (minus sign
for negatives, no fractional part) for an integer, and to what
`strconv.FormatFloat(·, 'f', -1, 64)` gives for a float; a scalar root walked
from `/` into the empty map yields the single entry at `/`. -/
theorem nodeWalk_scalar_sets_one_entry (fmtFloat : Float64 → GoString) :
    (∀ s, setsOneEntry fmtFloat (Node.str s) s) ∧
      setsOneEntry fmtFloat (Node.bool true) "true".toList ∧
      setsOneEntry fmtFloat (Node.bool false) "false".toList ∧
      (∀ n, setsOneEntry fmtFloat (Node.int n) (Itoa n) ∧ canonicalDecimal n (Itoa n)) ∧
      (∀ f, setsOneEntry fmtFloat (Node.float64 f) (fmtFloat f)) := by
  refine ⟨fun s => ?_, ?_, ?_, fun n => ⟨?_, Itoa_canonical n⟩, fun f => ?_⟩
  · exact setsOneEntry_of_eq _ _ _ (fun p vars => by rw [nodeWalk])
  · exact setsOneEntry_of_eq _ _ _ (fun p vars => by rw [nodeWalk]; rfl)
  · exact setsOneEntry_of_eq _ _ _ (fun p vars => by rw [nodeWalk]; rfl)
  · exact setsOneEntry_of_eq _ _ _ (fun p vars => by rw [nodeWalk])
  · exact setsOneEntry_of_eq _ _ _ (fun p vars => by rw [nodeWalk])

/-! ## Joining nice names onto a rendered path -/

theorem niceName_iff (s : GoString) :
    niceName s = true ↔ s ≠ [] ∧ '/' ∉ s ∧ s ≠ ['.'] ∧ s ≠ ['.', '.'] := by
  simp [niceName]

theorem cleanStep_nice (rooted : Bool) (out : List GoString) (s : GoString)
    (h : niceName s = true) : cleanStep rooted out s = s :: out := by
  obtain ⟨h1, _, h3, h4⟩ := (niceName_iff s).mp h
  simp [cleanStep, h1, h3, h4]

theorem cleanStep_nil (rooted : Bool) (out : List GoString) : cleanStep rooted out [] = out := by
  simp [cleanStep]

theorem foldl_cleanStep_nice (rooted : Bool) (segs : List GoString)
    (h : ∀ s ∈ segs, niceName s = true) (out : List GoString) :
    segs.foldl (cleanStep rooted) out = segs.reverse ++ out := by
  induction segs generalizing out with
  | nil => rfl
  | cons s segs ih =>
    rw [List.foldl_cons, cleanStep_nice rooted out s (h s (List.mem_cons_self _ _)),
      ih (fun t ht => h t (List.mem_cons_of_mem _ ht))]
    simp

theorem renderPath_append_eq (segs : List GoString) (s : GoString) :
    renderPath segs ++ '/' :: s
      = ['/'].intercalate (([] : GoString) :: (if segs = [] then [[]] else segs) ++ [s]) := by
  cases segs with
  | nil => simp [renderPath, List.intercalate]
  | cons a segs =>
    simp only [renderPath, List.intercalate, reduceCtorEq, ↓reduceIte]
    induction segs generalizing a with
    | nil => simp
    | cons b segs ih =>
      have := ih b
      simp only [List.cons_append, List.intersperse_cons_cons, List.flatten_cons,
        List.nil_append, List.singleton_append, List.append_assoc, List.cons.injEq,
        true_and] at this ⊢
      simpa using this

theorem splitOn_renderPath_append (segs : List GoString) (s : GoString)
    (hsegs : ∀ t ∈ segs, niceName t = true) (hs : niceName s = true) :
    (renderPath segs ++ '/' :: s).splitOn '/'
      = ([] : GoString) :: (if segs = [] then [[]] else segs) ++ [s] := by
  rw [renderPath_append_eq]
  apply List.splitOn_intercalate
  · intro l hl
    simp only [List.cons_append, List.mem_cons, List.mem_append, List.not_mem_nil,
      or_false] at hl
    rcases hl with rfl | hl | rfl
    · simp
    · split at hl
      · simp only [List.mem_singleton] at hl
        subst hl
        simp
      · exact ((niceName_iff l).mp (hsegs l hl)).2.1
    · exact ((niceName_iff l).mp hs).2.1
  · simp

/-- Joining a nice name onto the path rendered from nice names appends it. -/
theorem Join_renderPath (segs : List GoString) (s : GoString)
    (hsegs : ∀ t ∈ segs, niceName t = true) (hs : niceName s = true) :
    Join (renderPath segs) s = renderPath (segs ++ [s]) := by
  have hne : renderPath segs ≠ [] := by simp [renderPath]
  have hne2 : renderPath segs ++ '/' :: s ≠ [] := by simp [renderPath]
  have hhead : (renderPath segs ++ '/' :: s).head? = some '/' := by simp [renderPath]
  have hfold : ((renderPath segs ++ '/' :: s).splitOn '/').foldl (cleanStep true) []
      = (segs ++ [s]).reverse := by
    rw [splitOn_renderPath_append segs s hsegs hs]
    by_cases hnil : segs = []
    · subst hnil
      simp [cleanStep_nil, cleanStep_nice true [] s hs]
    · simp only [hnil, ↓reduceIte, List.cons_append, List.foldl_cons, cleanStep_nil]
      have hall : ∀ t ∈ segs ++ [s], niceName t = true := by
        intro t ht
        rcases List.mem_append.mp ht with h | h
        · exact hsegs t h
        · rw [List.mem_singleton] at h
          exact h ▸ hs
      rw [foldl_cleanStep_nice true (segs ++ [s]) hall []]
      simp
  unfold Join Clean
  rw [if_neg hne, if_neg hne2]
  simp only [hhead, decide_True, ↓reduceIte, hfold, List.reverse_reverse]
  rfl

theorem renderPath_injective (segs1 segs2 : List GoString)
    (h1 : ∀ t ∈ segs1, niceName t = true) (h2 : ∀ t ∈ segs2, niceName t = true)
    (h : renderPath segs1 = renderPath segs2) : segs1 = segs2 := by
  have hi : ['/'].intercalate segs1 = ['/'].intercalate segs2 := by
    simpa [renderPath] using h
  have hslash : ∀ (segs : List GoString), (∀ t ∈ segs, niceName t = true) →
      ∀ l ∈ segs, '/' ∉ l := fun segs hs l hl => ((niceName_iff l).mp (hs l hl)).2.1
  cases segs1 with
  | nil =>
    cases segs2 with
    | nil => rfl
    | cons b bs =>
      exfalso
      have hb := ((niceName_iff b).mp (h2 b (List.mem_cons_self _ _))).1
      have : ['/'].intercalate (b :: bs) ≠ [] := by
        cases bs <;> simp [List.intercalate, hb]
      exact this hi.symm
  | cons a as =>
    cases segs2 with
    | nil =>
      exfalso
      have ha := ((niceName_iff a).mp (h1 a (List.mem_cons_self _ _))).1
      have : ['/'].intercalate (a :: as) ≠ [] := by
        cases as <;> simp [List.intercalate, ha]
      exact this hi
    | cons b bs =>
      have e1 := List.splitOn_intercalate (a :: as) '/' (hslash _ h1) (by simp)
      have e2 := List.splitOn_intercalate (b :: bs) '/' (hslash _ h2) (by simp)
      rw [← e1, ← e2, hi]


/-! ## The walk of a document with nice names -/

theorem niceName_Itoa (i : Nat) : niceName (Itoa (Int.ofNat i)) = true := by
  rw [niceName_iff]
  have hmem := natDigits_mem i
  have hne := natDigits_ne_nil i
  have hdot : '.' ∉ natDigits i := fun h => absurd (hmem _ h) (by decide)
  refine ⟨hne, fun h => absurd (hmem _ h) (by decide), ?_, ?_⟩
  · intro h
    exact hdot (by rw [show natDigits i = ['.'] from h]; simp)
  · intro h
    exact hdot (by rw [show natDigits i = ['.', '.'] from h]; simp)

theorem assignAll_append (m : Vars) (es fs : Vars) :
    assignAll m (es ++ fs) = assignAll (assignAll m es) fs := by
  simp [assignAll, List.foldl_append]

theorem pathEntries_append (segs : List GoString) (ps qs : List (List GoString × GoString)) :
    pathEntries segs (ps ++ qs) = pathEntries segs ps ++ pathEntries segs qs := by
  simp [pathEntries]

theorem pathEntries_underSeg (segs : List GoString) (s : GoString)
    (ps : List (List GoString × GoString)) :
    pathEntries segs (underSeg s ps) = pathEntries (segs ++ [s]) ps := by
  simp [pathEntries, underSeg, List.map_map, Function.comp_def]

theorem nice_snoc (segs : List GoString) (s : GoString)
    (hsegs : ∀ t ∈ segs, niceName t = true) (hs : niceName s = true) :
    ∀ t ∈ segs ++ [s], niceName t = true := by
  intro t ht
  rcases List.mem_append.mp ht with h | h
  · exact hsegs t h
  · rw [List.mem_singleton] at h
    exact h ▸ hs

mutual
theorem nodeWalk_nice (fmtFloat : Float64 → GoString) :
    ∀ (n : Node) (segs : List GoString) (vars : Vars), niceNames n = true →
      (∀ t ∈ segs, niceName t = true) →
      nodeWalk fmtFloat n (renderPath segs) vars
        = some (assignAll vars (pathEntries segs (leafPaths fmtFloat n)))
  | .slice elems, segs, vars, hn, hs => by
    rw [nodeWalk, leafPaths]
    rw [niceNames] at hn
    exact walkSlice_nice fmtFloat elems 0 segs vars hn hs
  | .mapIface entries, segs, vars, hn, hs => by
    rw [nodeWalk, leafPaths]
    rw [niceNames] at hn
    exact walkIface_nice fmtFloat entries segs vars hn hs
  | .mapString entries, segs, vars, hn, hs => by
    rw [nodeWalk, leafPaths]
    rw [niceNames] at hn
    exact walkString_nice fmtFloat entries segs vars hn hs
  | .str s, segs, vars, _, _ => by
    simp [nodeWalk, leafPaths, pathEntries, assignAll]
  | .int n, segs, vars, _, _ => by
    simp [nodeWalk, leafPaths, pathEntries, assignAll]
  | .bool b, segs, vars, _, _ => by
    simp [nodeWalk, leafPaths, pathEntries, assignAll]
  | .float64 f, segs, vars, _, _ => by
    simp [nodeWalk, leafPaths, pathEntries, assignAll]
  | .other, segs, vars, _, _ => by
    simp [nodeWalk, leafPaths, pathEntries, assignAll]
theorem walkSlice_nice (fmtFloat : Float64 → GoString) :
    ∀ (elems : List Node) (i : Nat) (segs : List GoString) (vars : Vars),
      niceSlice elems = true → (∀ t ∈ segs, niceName t = true) →
      walkSlice fmtFloat elems i (renderPath segs) vars
        = some (assignAll vars (pathEntries segs (slicePaths fmtFloat elems i)))
  | [], i, segs, vars, _, _ => by
    simp [walkSlice, slicePaths, pathEntries, assignAll]
  | j :: rest, i, segs, vars, hn, hs => by
    rw [niceSlice, Bool.and_eq_true] at hn
    rw [walkSlice, slicePaths, Join_renderPath segs _ hs (niceName_Itoa i),
      nodeWalk_nice fmtFloat j (segs ++ [Itoa (Int.ofNat i)]) vars hn.1
        (nice_snoc segs _ hs (niceName_Itoa i))]
    simp only
    rw [walkSlice_nice fmtFloat rest (i + 1) segs _ hn.2 hs, pathEntries_append,
      assignAll_append, pathEntries_underSeg]
theorem walkIface_nice (fmtFloat : Float64 → GoString) :
    ∀ (entries : List (Node × Node)) (segs : List GoString) (vars : Vars),
      niceIface entries = true → (∀ t ∈ segs, niceName t = true) →
      walkIface fmtFloat entries (renderPath segs) vars
        = some (assignAll vars (pathEntries segs (ifacePaths fmtFloat entries)))
  | [], segs, vars, _, _ => by
    simp [walkIface, ifacePaths, pathEntries, assignAll]
  | (.str name, v) :: rest, segs, vars, hn, hs => by
    rw [niceIface, Bool.and_eq_true, Bool.and_eq_true] at hn
    rw [walkIface, ifacePaths]
    rw [Join_renderPath segs _ hs hn.1.1,
      nodeWalk_nice fmtFloat v (segs ++ [name]) vars hn.1.2 (nice_snoc segs _ hs hn.1.1)]
    simp only
    rw [walkIface_nice fmtFloat rest segs _ hn.2 hs, pathEntries_append,
      assignAll_append, pathEntries_underSeg]
  | (.slice _, _) :: _, _, _, hn, _ => by simp [niceIface] at hn
  | (.mapIface _, _) :: _, _, _, hn, _ => by simp [niceIface] at hn
  | (.mapString _, _) :: _, _, _, hn, _ => by simp [niceIface] at hn
  | (.int _, _) :: _, _, _, hn, _ => by simp [niceIface] at hn
  | (.bool _, _) :: _, _, _, hn, _ => by simp [niceIface] at hn
  | (.float64 _, _) :: _, _, _, hn, _ => by simp [niceIface] at hn
  | (.other, _) :: _, _, _, hn, _ => by simp [niceIface] at hn
theorem walkString_nice (fmtFloat : Float64 → GoString) :
    ∀ (entries : List (GoString × Node)) (segs : List GoString) (vars : Vars),
      niceString entries = true → (∀ t ∈ segs, niceName t = true) →
      walkString fmtFloat entries (renderPath segs) vars
        = some (assignAll vars (pathEntries segs (stringPaths fmtFloat entries)))
  | [], segs, vars, _, _ => by
    simp [walkString, stringPaths, pathEntries, assignAll]
  | (k, v) :: rest, segs, vars, hn, hs => by
    rw [niceString, Bool.and_eq_true, Bool.and_eq_true] at hn
    rw [walkString, stringPaths, Join_renderPath segs _ hs hn.1.1,
      nodeWalk_nice fmtFloat v (segs ++ [k]) vars hn.1.2 (nice_snoc segs _ hs hn.1.1)]
    simp only
    rw [walkString_nice fmtFloat rest segs _ hn.2 hs, pathEntries_append,
      assignAll_append, pathEntries_underSeg]
end

/-! ## Assigning entries with distinct keys -/

theorem mapSet_of_not_mem (m : Vars) (k v : GoString) (h : k ∉ mapKeys m) :
    mapSet m k v = (k, v) :: m := by
  have hf : m.filter (fun e => !decide (e.1 = k)) = m := by
    apply List.filter_eq_self.mpr
    intro e he
    have : e.1 ≠ k := fun hk => h (hk ▸ List.mem_map_of_mem Prod.fst he)
    simpa using this
  rw [mapSet, hf]

theorem assignAll_fresh (es : Vars) (vars : Vars)
    (h : (mapKeys es ++ mapKeys vars).Nodup) : assignAll vars es = es.reverse ++ vars := by
  induction es generalizing vars with
  | nil => rfl
  | cons e es ih =>
    have h1 : e.1 ∉ mapKeys vars := by
      intro hm
      have hd := (List.nodup_append.mp h).2.2
      exact hd (List.mem_cons_self _ _) hm
    have h2 : (mapKeys es ++ mapKeys (e :: vars)).Nodup := by
      have hp : (mapKeys es ++ mapKeys (e :: vars)).Perm (mapKeys (e :: es) ++ mapKeys vars) := by
        simp only [mapKeys, List.map_cons, List.cons_append]
        exact List.perm_middle
      exact hp.nodup_iff.mpr h
    have hstep : assignAll vars (e :: es) = assignAll (e :: vars) es := by
      simp only [assignAll, List.foldl_cons]
      rw [mapSet_of_not_mem vars e.1 e.2 h1]
    rw [hstep, ih (e :: vars) h2]
    simp

theorem mapGet_of_mem_nodup (m : Vars) (k v : GoString) (hn : (mapKeys m).Nodup)
    (h : (k, v) ∈ m) : mapGet m k = some v := by
  induction m with
  | nil => cases h
  | cons e m ih =>
    obtain ⟨a, b⟩ := e
    simp only [mapKeys, List.map_cons, List.nodup_cons] at hn
    rcases List.mem_cons.mp h with heq | hm
    · cases heq
      simp [mapGet]
    · have hne : k ≠ a := by
        intro hka
        subst hka
        exact hn.1 (List.mem_map_of_mem Prod.fst hm)
      simp only [mapGet, hne, ↓reduceIte]
      exact ih hn.2 hm

/-! ## The leaf paths of a document -/

theorem mem_underSeg (s : GoString) (ps : List (List GoString × GoString))
    (e : List GoString × GoString) :
    e ∈ underSeg s ps ↔ ∃ p ∈ ps, e = (s :: p.1, p.2) := by
  simp only [underSeg, List.mem_map]
  constructor
  · rintro ⟨p, hp, rfl⟩
    exact ⟨p, hp, rfl⟩
  · rintro ⟨p, hp, rfl⟩
    exact ⟨p, hp, rfl⟩

theorem length_underSeg (s : GoString) (ps : List (List GoString × GoString)) :
    (underSeg s ps).length = ps.length := by
  simp [underSeg]

theorem nodup_underSeg_append (s : GoString) (ps qs : List (List GoString × GoString))
    (hp : (ps.map Prod.fst).Nodup) (hq : (qs.map Prod.fst).Nodup)
    (hhead : ∀ e ∈ qs, e.1.head? ≠ some s) :
    ((underSeg s ps ++ qs).map Prod.fst).Nodup := by
  rw [List.map_append, List.nodup_append]
  refine ⟨?_, hq, ?_⟩
  · have : (underSeg s ps).map Prod.fst = (ps.map Prod.fst).map (fun p => s :: p) := by
      simp [underSeg, List.map_map, Function.comp_def]
    rw [this]
    exact hp.map (fun a b hab => by simpa using hab)
  · intro x hx hx2
    obtain ⟨e, he, rfl⟩ := List.mem_map.mp hx
    obtain ⟨p, _, rfl⟩ := (mem_underSeg s ps e).mp he
    obtain ⟨q, hq1, hq2⟩ := List.mem_map.mp hx2
    apply hhead q hq1
    rw [hq2]
    rfl

theorem slicePaths_head (fmtFloat : Float64 → GoString) (elems : List Node) (i : Nat) :
    ∀ e ∈ slicePaths fmtFloat elems i, ∃ j, i ≤ j ∧ e.1.head? = some (Itoa (Int.ofNat j)) := by
  induction elems generalizing i with
  | nil => simp [slicePaths]
  | cons x rest ih =>
    intro e he
    rw [slicePaths] at he
    rcases List.mem_append.mp he with h | h
    · obtain ⟨p, _, rfl⟩ := (mem_underSeg _ _ e).mp h
      exact ⟨i, le_refl i, rfl⟩
    · obtain ⟨j, hj, hh⟩ := ih (i + 1) e h
      exact ⟨j, by omega, hh⟩

theorem stringPaths_head (fmtFloat : Float64 → GoString) (entries : List (GoString × Node)) :
    ∀ e ∈ stringPaths fmtFloat entries, ∃ k ∈ entries.map Prod.fst, e.1.head? = some k := by
  induction entries with
  | nil => simp [stringPaths]
  | cons x rest ih =>
    obtain ⟨k, v⟩ := x
    intro e he
    rw [stringPaths] at he
    rcases List.mem_append.mp he with h | h
    · obtain ⟨p, _, rfl⟩ := (mem_underSeg _ _ e).mp h
      exact ⟨k, List.mem_map_of_mem Prod.fst (List.mem_cons_self _ _), rfl⟩
    · obtain ⟨k1, hk1, hh⟩ := ih e h
      exact ⟨k1, by rw [List.map_cons]; exact List.mem_cons_of_mem _ hk1, hh⟩

theorem ifacePaths_cons_str (fmtFloat : Float64 → GoString) (name : GoString) (v : Node)
    (rest : List (Node × Node)) :
    ifacePaths fmtFloat ((Node.str name, v) :: rest)
      = underSeg name (leafPaths fmtFloat v) ++ ifacePaths fmtFloat rest := by
  rw [ifacePaths]

theorem ifacePaths_cons_other (fmtFloat : Float64 → GoString) (k v : Node)
    (rest : List (Node × Node)) (hk : ∀ name, k ≠ Node.str name) :
    ifacePaths fmtFloat ((k, v) :: rest) = ifacePaths fmtFloat rest := by
  cases k with
  | str name => exact absurd rfl (hk name)
  | _ => simp [ifacePaths]

theorem ifaceNames_cons_other (k v : Node) (rest : List (Node × Node))
    (hk : ∀ name, k ≠ Node.str name) : ifaceNames ((k, v) :: rest) = ifaceNames rest := by
  cases k with
  | str name => exact absurd rfl (hk name)
  | _ => simp [ifaceNames]

theorem ifacePaths_head (fmtFloat : Float64 → GoString) (entries : List (Node × Node)) :
    ∀ e ∈ ifacePaths fmtFloat entries, ∃ k ∈ ifaceNames entries, e.1.head? = some k := by
  induction entries with
  | nil => simp [ifacePaths]
  | cons x rest ih =>
    obtain ⟨k, v⟩ := x
    intro e he
    by_cases hk : ∃ name, k = Node.str name
    · obtain ⟨name, rfl⟩ := hk
      rw [ifacePaths_cons_str] at he
      rcases List.mem_append.mp he with h | h
      · obtain ⟨p, _, rfl⟩ := (mem_underSeg _ _ e).mp h
        exact ⟨name, by rw [ifaceNames]; exact List.mem_cons_self _ _, rfl⟩
      · obtain ⟨k1, hk1, hh⟩ := ih e h
        exact ⟨k1, by rw [ifaceNames]; exact List.mem_cons_of_mem _ hk1, hh⟩
    · have hk2 : ∀ name, k ≠ Node.str name := fun name h => hk ⟨name, h⟩
      rw [ifacePaths_cons_other fmtFloat k v rest hk2] at he
      rw [ifaceNames_cons_other k v rest hk2]
      exact ih e he

theorem Itoa_ofNat_injective (i j : Nat) (h : Itoa (Int.ofNat i) = Itoa (Int.ofNat j)) : i = j :=
  natDigits_injective h

theorem niceIface_cons (k v : Node) (rest : List (Node × Node))
    (h : niceIface ((k, v) :: rest) = true) :
    ∃ name, k = Node.str name ∧ niceName name = true ∧ niceNames v = true ∧
      niceIface rest = true := by
  cases k with
  | str name =>
    rw [niceIface, Bool.and_eq_true, Bool.and_eq_true] at h
    exact ⟨name, rfl, h.1.1, h.1.2, h.2⟩
  | _ => simp [niceIface] at h

theorem nice_of_mem_underSeg (s : GoString) (ps : List (List GoString × GoString))
    (hs : niceName s = true) (hps : ∀ e ∈ ps, ∀ t ∈ e.1, niceName t = true) :
    ∀ e ∈ underSeg s ps, ∀ t ∈ e.1, niceName t = true := by
  intro e he t ht
  obtain ⟨p, hp, rfl⟩ := (mem_underSeg s ps e).mp he
  rcases List.mem_cons.mp ht with h | h
  · exact h ▸ hs
  · exact hps p hp t h

mutual
theorem leafPaths_nice (fmtFloat : Float64 → GoString) :
    ∀ (n : Node), niceNames n = true →
      ∀ e ∈ leafPaths fmtFloat n, ∀ t ∈ e.1, niceName t = true
  | .slice elems, hn => by
    rw [niceNames] at hn
    rw [leafPaths]
    exact slicePaths_nice fmtFloat elems 0 hn
  | .mapIface entries, hn => by
    rw [niceNames] at hn
    rw [leafPaths]
    exact ifacePaths_nice fmtFloat entries hn
  | .mapString entries, hn => by
    rw [niceNames] at hn
    rw [leafPaths]
    exact stringPaths_nice fmtFloat entries hn
  | .str _, _ => by simp [leafPaths]
  | .int _, _ => by simp [leafPaths]
  | .bool _, _ => by simp [leafPaths]
  | .float64 _, _ => by simp [leafPaths]
  | .other, _ => by simp [leafPaths]
theorem slicePaths_nice (fmtFloat : Float64 → GoString) :
    ∀ (elems : List Node) (i : Nat), niceSlice elems = true →
      ∀ e ∈ slicePaths fmtFloat elems i, ∀ t ∈ e.1, niceName t = true
  | [], _, _ => by simp [slicePaths]
  | j :: rest, i, hn => by
    rw [niceSlice, Bool.and_eq_true] at hn
    intro e he
    rw [slicePaths] at he
    rcases List.mem_append.mp he with h | h
    · exact nice_of_mem_underSeg _ _ (niceName_Itoa i) (leafPaths_nice fmtFloat j hn.1) e h
    · exact slicePaths_nice fmtFloat rest (i + 1) hn.2 e h
theorem ifacePaths_nice (fmtFloat : Float64 → GoString) :
    ∀ (entries : List (Node × Node)), niceIface entries = true →
      ∀ e ∈ ifacePaths fmtFloat entries, ∀ t ∈ e.1, niceName t = true
  | [], _ => by simp [ifacePaths]
  | (k, v) :: rest, hn => by
    obtain ⟨name, rfl, h1, h2, h3⟩ := niceIface_cons k v rest hn
    intro e he
    rw [ifacePaths_cons_str] at he
    rcases List.mem_append.mp he with h | h
    · exact nice_of_mem_underSeg _ _ h1 (leafPaths_nice fmtFloat v h2) e h
    · exact ifacePaths_nice fmtFloat rest h3 e h
theorem stringPaths_nice (fmtFloat : Float64 → GoString) :
    ∀ (entries : List (GoString × Node)), niceString entries = true →
      ∀ e ∈ stringPaths fmtFloat entries, ∀ t ∈ e.1, niceName t = true
  | [], _ => by simp [stringPaths]
  | (k, v) :: rest, hn => by
    rw [niceString, Bool.and_eq_true, Bool.and_eq_true] at hn
    intro e he
    rw [stringPaths] at he
    rcases List.mem_append.mp he with h | h
    · exact nice_of_mem_underSeg _ _ hn.1.1 (leafPaths_nice fmtFloat v hn.1.2) e h
    · exact stringPaths_nice fmtFloat rest hn.2 e h
end

mutual
theorem leafPaths_length (fmtFloat : Float64 → GoString) :
    ∀ (n : Node), niceNames n = true → (leafPaths fmtFloat n).length = leaves n
  | .slice elems, hn => by
    rw [niceNames] at hn
    rw [leafPaths, leaves]
    exact slicePaths_length fmtFloat elems 0 hn
  | .mapIface entries, hn => by
    rw [niceNames] at hn
    rw [leafPaths, leaves]
    exact ifacePaths_length fmtFloat entries hn
  | .mapString entries, hn => by
    rw [niceNames] at hn
    rw [leafPaths, leaves]
    exact stringPaths_length fmtFloat entries hn
  | .str _, _ => by simp [leafPaths, leaves]
  | .int _, _ => by simp [leafPaths, leaves]
  | .bool _, _ => by simp [leafPaths, leaves]
  | .float64 _, _ => by simp [leafPaths, leaves]
  | .other, _ => by simp [leafPaths, leaves]
theorem slicePaths_length (fmtFloat : Float64 → GoString) :
    ∀ (elems : List Node) (i : Nat), niceSlice elems = true →
      (slicePaths fmtFloat elems i).length = leavesSlice elems
  | [], _, _ => by simp [slicePaths, leavesSlice]
  | j :: rest, i, hn => by
    rw [niceSlice, Bool.and_eq_true] at hn
    rw [slicePaths, leavesSlice, List.length_append, length_underSeg,
      leafPaths_length fmtFloat j hn.1, slicePaths_length fmtFloat rest (i + 1) hn.2]
theorem ifacePaths_length (fmtFloat : Float64 → GoString) :
    ∀ (entries : List (Node × Node)), niceIface entries = true →
      (ifacePaths fmtFloat entries).length = leavesIface entries
  | [], _ => by simp [ifacePaths, leavesIface]
  | (k, v) :: rest, hn => by
    obtain ⟨name, rfl, _, h2, h3⟩ := niceIface_cons k v rest hn
    rw [ifacePaths_cons_str, leavesIface, List.length_append, length_underSeg,
      leafPaths_length fmtFloat v h2, ifacePaths_length fmtFloat rest h3]
theorem stringPaths_length (fmtFloat : Float64 → GoString) :
    ∀ (entries : List (GoString × Node)), niceString entries = true →
      (stringPaths fmtFloat entries).length = leavesString entries
  | [], _ => by simp [stringPaths, leavesString]
  | (k, v) :: rest, hn => by
    rw [niceString, Bool.and_eq_true, Bool.and_eq_true] at hn
    rw [stringPaths, leavesString, List.length_append, length_underSeg,
      leafPaths_length fmtFloat v hn.1.2, stringPaths_length fmtFloat rest hn.2]
end

mutual
theorem leafPaths_nodup (fmtFloat : Float64 → GoString) :
    ∀ (n : Node), distinctKeys n = true → ((leafPaths fmtFloat n).map Prod.fst).Nodup
  | .slice elems, hn => by
    rw [distinctKeys] at hn
    rw [leafPaths]
    exact slicePaths_nodup fmtFloat elems 0 hn
  | .mapIface entries, hn => by
    rw [distinctKeys, Bool.and_eq_true, decide_eq_true_eq] at hn
    rw [leafPaths]
    exact ifacePaths_nodup fmtFloat entries hn.1 hn.2
  | .mapString entries, hn => by
    rw [distinctKeys, Bool.and_eq_true, decide_eq_true_eq] at hn
    rw [leafPaths]
    exact stringPaths_nodup fmtFloat entries hn.1 hn.2
  | .str _, _ => by simp [leafPaths]
  | .int _, _ => by simp [leafPaths]
  | .bool _, _ => by simp [leafPaths]
  | .float64 _, _ => by simp [leafPaths]
  | .other, _ => by simp [leafPaths]
theorem slicePaths_nodup (fmtFloat : Float64 → GoString) :
    ∀ (elems : List Node) (i : Nat), distinctSlice elems = true →
      ((slicePaths fmtFloat elems i).map Prod.fst).Nodup
  | [], _, _ => by simp [slicePaths]
  | j :: rest, i, hn => by
    rw [distinctSlice, Bool.and_eq_true] at hn
    rw [slicePaths]
    refine nodup_underSeg_append _ _ _ (leafPaths_nodup fmtFloat j hn.1)
      (slicePaths_nodup fmtFloat rest (i + 1) hn.2) ?_
    intro e he hhead
    obtain ⟨j1, hj1, hh⟩ := slicePaths_head fmtFloat rest (i + 1) e he
    rw [hh] at hhead
    have := Itoa_ofNat_injective _ _ (Option.some.inj hhead)
    omega
theorem ifacePaths_nodup (fmtFloat : Float64 → GoString) :
    ∀ (entries : List (Node × Node)), (ifaceNames entries).Nodup →
      distinctIface entries = true → ((ifacePaths fmtFloat entries).map Prod.fst).Nodup
  | [], _, _ => by simp [ifacePaths]
  | (k, v) :: rest, hnames, hn => by
    rw [distinctIface, Bool.and_eq_true] at hn
    by_cases hk : ∃ name, k = Node.str name
    · obtain ⟨name, rfl⟩ := hk
      rw [ifaceNames, List.nodup_cons] at hnames
      rw [ifacePaths_cons_str]
      refine nodup_underSeg_append _ _ _ (leafPaths_nodup fmtFloat v hn.1)
        (ifacePaths_nodup fmtFloat rest hnames.2 hn.2) ?_
      intro e he hhead
      obtain ⟨k1, hk1, hh⟩ := ifacePaths_head fmtFloat rest e he
      rw [hh] at hhead
      exact hnames.1 (Option.some.inj hhead ▸ hk1)
    · have hk2 : ∀ name, k ≠ Node.str name := fun name h => hk ⟨name, h⟩
      rw [ifaceNames_cons_other k v rest hk2] at hnames
      rw [ifacePaths_cons_other fmtFloat k v rest hk2]
      exact ifacePaths_nodup fmtFloat rest hnames hn.2
theorem stringPaths_nodup (fmtFloat : Float64 → GoString) :
    ∀ (entries : List (GoString × Node)), (entries.map Prod.fst).Nodup →
      distinctString entries = true → ((stringPaths fmtFloat entries).map Prod.fst).Nodup
  | [], _, _ => by simp [stringPaths]
  | (k, v) :: rest, hnames, hn => by
    rw [distinctString, Bool.and_eq_true] at hn
    rw [List.map_cons, List.nodup_cons] at hnames
    rw [stringPaths]
    refine nodup_underSeg_append _ _ _ (leafPaths_nodup fmtFloat v hn.1)
      (stringPaths_nodup fmtFloat rest hnames.2 hn.2) ?_
    intro e he hhead
    obtain ⟨k1, hk1, hh⟩ := stringPaths_head fmtFloat rest e he
    rw [hh] at hhead
    exact hnames.1 (Option.some.inj hhead ▸ hk1)
end

/-! ## Where the walk returns -/

theorem stringKeysIface_cons (k v : Node) (rest : List (Node × Node))
    (h : stringKeysIface ((k, v) :: rest) = true) :
    ∃ name, k = Node.str name ∧ stringKeys v = true ∧ stringKeysIface rest = true := by
  cases k with
  | str name =>
    rw [stringKeysIface, Bool.and_eq_true] at h
    exact ⟨name, rfl, h.1, h.2⟩
  | _ => simp [stringKeysIface] at h

mutual
/-- The walk returns on every document whose mapping keys are all strings, from
every path and into every map: the type assertion on a key is its only panic. -/
theorem nodeWalk_returns_of_stringKeys (fmtFloat : Float64 → GoString) :
    ∀ (n : Node) (key : GoString) (vars : Vars), stringKeys n = true →
      ∃ out, nodeWalk fmtFloat n key vars = some out
  | .slice elems, key, vars, h => by
    rw [stringKeys] at h
    rw [nodeWalk]
    exact walkSlice_returns_of_stringKeys fmtFloat elems 0 key vars h
  | .mapIface entries, key, vars, h => by
    rw [stringKeys] at h
    rw [nodeWalk]
    exact walkIface_returns_of_stringKeys fmtFloat entries key vars h
  | .mapString entries, key, vars, h => by
    rw [stringKeys] at h
    rw [nodeWalk]
    exact walkString_returns_of_stringKeys fmtFloat entries key vars h
  | .str _, _, _, _ => ⟨_, by rw [nodeWalk]⟩
  | .int _, _, _, _ => ⟨_, by rw [nodeWalk]⟩
  | .bool _, _, _, _ => ⟨_, by rw [nodeWalk]⟩
  | .float64 _, _, _, _ => ⟨_, by rw [nodeWalk]⟩
  | .other, _, _, _ => ⟨_, by rw [nodeWalk]⟩
theorem walkSlice_returns_of_stringKeys (fmtFloat : Float64 → GoString) :
    ∀ (elems : List Node) (i : Nat) (key : GoString) (vars : Vars),
      stringKeysSlice elems = true → ∃ out, walkSlice fmtFloat elems i key vars = some out
  | [], _, _, _, _ => ⟨_, by rw [walkSlice]⟩
  | j :: rest, i, key, vars, h => by
    rw [stringKeysSlice, Bool.and_eq_true] at h
    obtain ⟨out1, h1⟩ := nodeWalk_returns_of_stringKeys fmtFloat j
      (Join key (Itoa (Int.ofNat i))) vars h.1
    rw [walkSlice, h1]
    exact walkSlice_returns_of_stringKeys fmtFloat rest (i + 1) key out1 h.2
theorem walkIface_returns_of_stringKeys (fmtFloat : Float64 → GoString) :
    ∀ (entries : List (Node × Node)) (key : GoString) (vars : Vars),
      stringKeysIface entries = true → ∃ out, walkIface fmtFloat entries key vars = some out
  | [], _, _, _ => ⟨_, by rw [walkIface]⟩
  | (k, v) :: rest, key, vars, h => by
    obtain ⟨name, rfl, h1, h2⟩ := stringKeysIface_cons k v rest h
    obtain ⟨out1, ho⟩ := nodeWalk_returns_of_stringKeys fmtFloat v (Join key name) vars h1
    rw [walkIface, ho]
    exact walkIface_returns_of_stringKeys fmtFloat rest key out1 h2
theorem walkString_returns_of_stringKeys (fmtFloat : Float64 → GoString) :
    ∀ (entries : List (GoString × Node)) (key : GoString) (vars : Vars),
      stringKeysString entries = true → ∃ out, walkString fmtFloat entries key vars = some out
  | [], _, _, _ => ⟨_, by rw [walkString]⟩
  | (k, v) :: rest, key, vars, h => by
    rw [stringKeysString, Bool.and_eq_true] at h
    obtain ⟨out1, ho⟩ := nodeWalk_returns_of_stringKeys fmtFloat v (Join key k) vars h.1
    rw [walkString, ho]
    exact walkString_returns_of_stringKeys fmtFloat rest key out1 h.2
end

/-! ## C2, C3 and C9: the walk from the root path -/

theorem mapKeys_pathEntries_nodup (ps : List (List GoString × GoString))
    (hnice : ∀ e ∈ ps, ∀ t ∈ e.1, niceName t = true) (hnodup : (ps.map Prod.fst).Nodup) :
    (mapKeys (pathEntries [] ps)).Nodup := by
  have hkeys : mapKeys (pathEntries [] ps) = (ps.map Prod.fst).map renderPath := by
    simp [mapKeys, pathEntries, List.map_map, Function.comp_def]
  rw [hkeys]
  apply List.Nodup.map_on _ hnodup
  intro a ha b hb hab
  obtain ⟨ea, hea, rfl⟩ := List.mem_map.mp ha
  obtain ⟨eb, heb, rfl⟩ := List.mem_map.mp hb
  exact renderPath_injective _ _ (hnice ea hea) (hnice eb heb) hab

/-- The walk of a document with nice names from the root path into the empty
map: the entries are the rendered leaf paths, each once. -/
theorem nodeWalk_root_nice (fmtFloat : Float64 → GoString) (D : Node)
    (hnice : niceNames D = true) (hmaps : distinctKeys D = true) :
    nodeWalk fmtFloat D "/".toList [] = some (pathEntries [] (leafPaths fmtFloat D)).reverse ∧
      (mapKeys (pathEntries [] (leafPaths fmtFloat D)).reverse).Nodup := by
  have hkeys := mapKeys_pathEntries_nodup (leafPaths fmtFloat D)
    (leafPaths_nice fmtFloat D hnice) (leafPaths_nodup fmtFloat D hmaps)
  have hroot : "/".toList = renderPath [] := rfl
  constructor
  · rw [hroot, nodeWalk_nice fmtFloat D [] [] hnice (by simp),
      assignAll_fresh _ [] (by simpa [mapKeys] using hkeys)]
    simp
  · have : mapKeys (pathEntries [] (leafPaths fmtFloat D)).reverse
        = (mapKeys (pathEntries [] (leafPaths fmtFloat D))).reverse := by
      simp [mapKeys]
    rw [this]
    exact List.nodup_reverse.mpr hkeys

/-- C2: for a decoded document whose object field names are not empty, contain
no slash and are neither `.` nor `..` (each object holding a name once, as a Go
map does), the walk from `/` into the empty map returns, and the map it leaves
holds the value `v` under the key `k` exactly when some scalar leaf with
stringified value `v` lies at the path whose elements, joined by slashes after
a leading slash, spell `k`: the field name for an object step, the decimal
index for an array step.  No other key is recorded. -/
theorem nodeWalk_records_each_leaf_at_its_path (fmtFloat : Float64 → GoString) (D : Node)
    (hnice : niceNames D = true) (hmaps : distinctKeys D = true) :
    ∃ vars, nodeWalk fmtFloat D "/".toList [] = some vars ∧
      ∀ k v, mapGet vars k = some v ↔
        ∃ segs, (segs, v) ∈ leafPaths fmtFloat D ∧ k = renderPath segs := by
  obtain ⟨hwalk, hkeys⟩ := nodeWalk_root_nice fmtFloat D hnice hmaps
  refine ⟨_, hwalk, fun k v => ⟨fun h => ?_, fun h => ?_⟩⟩
  · have hmem := List.mem_reverse.mp (mapGet_eq_some_mem _ k v h)
    obtain ⟨e, he, heq⟩ := List.mem_map.mp hmem
    obtain ⟨segs, w⟩ := e
    simp only [List.nil_append, Prod.mk.injEq] at heq
    exact ⟨segs, heq.2 ▸ he, heq.1.symm⟩
  · obtain ⟨segs, hmem, rfl⟩ := h
    apply mapGet_of_mem_nodup _ _ _ hkeys
    apply List.mem_reverse.mpr
    exact List.mem_map.mpr ⟨(segs, v), hmem, rfl⟩

/-- Witness of C2: the service document of the specification flattens to the
port and the enabled flag below `/service`. -/
theorem nodeWalk_records_each_leaf_at_its_path_witness :
    (niceNames serviceDoc = true ∧ distinctKeys serviceDoc = true) ∧
      nodeWalk exampleLibs.fmtFloat serviceDoc "/".toList []
        = some [("/service/enabled".toList, "true".toList),
            ("/service/port".toList, "8080".toList)] ∧
      ∃ vars, nodeWalk exampleLibs.fmtFloat serviceDoc "/".toList [] = some vars ∧
        ∀ k v, mapGet vars k = some v ↔
          ∃ segs, (segs, v) ∈ leafPaths exampleLibs.fmtFloat serviceDoc ∧ k = renderPath segs :=
  ⟨by decide, by decide,
    nodeWalk_records_each_leaf_at_its_path exampleLibs.fmtFloat serviceDoc (by decide)
      (by decide)⟩

/-- C3, as amended: for a decoded document whose object field names are not
empty, contain no slash and are neither `.` nor `..` (each object holding a name
once), the map the walk from `/` leaves has as many entries as the document has
scalar leaves: one entry for every leaf, none for an object or an array. -/
theorem nodeWalk_entry_count_eq_leaves (fmtFloat : Float64 → GoString) (D : Node)
    (hnice : niceNames D = true) (hmaps : distinctKeys D = true) :
    ∃ vars, nodeWalk fmtFloat D "/".toList [] = some vars ∧ (mapKeys vars).Nodup ∧
      vars.length = leaves D := by
  obtain ⟨hwalk, hkeys⟩ := nodeWalk_root_nice fmtFloat D hnice hmaps
  refine ⟨_, hwalk, hkeys, ?_⟩
  rw [List.length_reverse, pathEntries, List.length_map, leafPaths_length fmtFloat D hnice]

/-- Witness of C3 as amended: the service document has two leaves and flattens
to two entries. -/
theorem nodeWalk_entry_count_eq_leaves_witness :
    (niceNames serviceDoc = true ∧ distinctKeys serviceDoc = true ∧ leaves serviceDoc = 2) ∧
      ∃ vars, nodeWalk exampleLibs.fmtFloat serviceDoc "/".toList [] = some vars ∧
        (mapKeys vars).Nodup ∧ vars.length = leaves serviceDoc :=
  ⟨by decide,
    nodeWalk_entry_count_eq_leaves exampleLibs.fmtFloat serviceDoc (by decide) (by decide)⟩

/-- Counterexample to C3 as stated: the field `a/b` and the field `b` of the
object `a` are both recorded under `/a/b`, so the two leaves leave one entry. -/
theorem nodeWalk_entry_count_counterexample :
    distinctKeys collidingDoc = true ∧ leaves collidingDoc = 2 ∧
      nodeWalk exampleLibs.fmtFloat collidingDoc "/".toList []
        = some [("/a/b".toList, "2".toList)] ∧
      ¬ ∃ vars, nodeWalk exampleLibs.fmtFloat collidingDoc "/".toList [] = some vars ∧
        vars.length = leaves collidingDoc := by
  refine ⟨by decide, by decide, by decide, ?_⟩
  rintro ⟨vars, hwalk, hlen⟩
  have h : nodeWalk exampleLibs.fmtFloat collidingDoc "/".toList []
      = some [("/a/b".toList, "2".toList)] := by decide
  rw [h] at hwalk
  cases hwalk
  revert hlen
  decide

/-- C9, at the failing input: on the YAML mapping `1: one`, whose key decodes to
an integer, the type assertion on the key panics: `nodeWalk` does not return,
and neither does the `GetValues` call that decoded the mapping. -/
theorem nodeWalk_panics_on_integer_key :
    nodeWalk exampleLibs.fmtFloat integerKeyDoc "/".toList [] = none ∧
      exampleLibs.yamlUnmarshal "1: one".toList = Except.ok [(Node.int 1, Node.str "one".toList)] ∧
      (GetValues exampleLibs yamlClient ⟨"20240101.120000.000".toList⟩
        (StoreReply.body "1: one".toList) ["/".toList]).ret = Ret.panicked :=
  ⟨by decide, rfl, by decide⟩

/-! ## C11: WatchPrefix -/

theorem awaitStop_some (stopChan : List ChanEvent) (start waited : Nat)
    (h : awaitStop stopChan start = some waited) :
    start ≤ waited ∧ (∀ e ∈ stopChan.take (waited - start), e = ChanEvent.idle) ∧
      ∃ e, stopChan.get? (waited - start) = some e ∧ e ≠ ChanEvent.idle := by
  induction stopChan generalizing start with
  | nil => simp [awaitStop] at h
  | cons x rest ih =>
    cases x with
    | idle =>
      rw [awaitStop] at h
      obtain ⟨h1, h2, e, h3, h4⟩ := ih (start + 1) h
      have hsub : waited - start = (waited - (start + 1)) + 1 := by omega
      refine ⟨by omega, ?_, e, ?_, h4⟩
      · rw [hsub, List.take_succ_cons]
        intro e1 he1
        rcases List.mem_cons.mp he1 with h5 | h5
        · exact h5
        · exact h2 e1 h5
      · rw [hsub]
        exact h3
    | value b =>
      simp only [awaitStop, Option.some.injEq] at h
      subst h
      simp
    | closed =>
      simp only [awaitStop, Option.some.injEq] at h
      subst h
      simp

theorem awaitStop_none (stopChan : List ChanEvent) (start : Nat)
    (h : awaitStop stopChan start = none) : ∀ e ∈ stopChan, e = ChanEvent.idle := by
  induction stopChan generalizing start with
  | nil => simp
  | cons x rest ih =>
    cases x with
    | idle =>
      rw [awaitStop] at h
      intro e he
      rcases List.mem_cons.mp he with h5 | h5
      · exact h5
      · exact ih (start + 1) h e h5
    | value b => simp [awaitStop] at h
    | closed => simp [awaitStop] at h

/-- C11: for every prefix, key list and wait index, `WatchPrefix` stays blocked
as long as `stopChan` has not yielded; it returns at the first moment the
channel yields (a value is sent or it is closed), and then with index 0 and a
nil error.  It never returns an error, and the client, its cached snapshot
included, is as before. -/
theorem WatchPrefix_returns_zero_when_stopped (c : Client) (pfx : GoString)
    (keys : List GoString) (waitIndex : Nat) (stopChan : List ChanEvent) :
    (WatchPrefix c pfx keys waitIndex stopChan).client = c ∧
      (((WatchPrefix c pfx keys waitIndex stopChan).ret = none ∧
          ∀ e ∈ stopChan, e = ChanEvent.idle) ∨
        ((WatchPrefix c pfx keys waitIndex stopChan).ret = some (0, none) ∧
          (∀ e ∈ stopChan.take (WatchPrefix c pfx keys waitIndex stopChan).waited,
            e = ChanEvent.idle) ∧
          ∃ e, stopChan.get? (WatchPrefix c pfx keys waitIndex stopChan).waited = some e ∧
            e ≠ ChanEvent.idle)) := by
  unfold WatchPrefix
  cases h : awaitStop stopChan 0 with
  | none => exact ⟨rfl, Or.inl ⟨rfl, awaitStop_none stopChan 0 h⟩⟩
  | some waited =>
    obtain ⟨_, h2, h3⟩ := awaitStop_some stopChan 0 waited h
    exact ⟨rfl, Or.inr ⟨rfl, by simpa using h2, by simpa using h3⟩⟩

/-! ## C13: NewS3Client -/

/-- C13: `NewS3Client` returns no client and an error whenever the bucket or the
key is empty, and then has made no call to the AWS SDK; and whenever it returns
a client, the session creation, `HeadBucket` and `HeadObject` have all been
called and have all succeeded, and the client holds the given bucket, key and
revision and no snapshot. -/
theorem NewS3Client_validates_before_construction (aws : AwsReplies) (bucket key : GoString)
    (revision : Nat) :
    (bucket = [] ∨ key = [] →
        (∃ e, NewS3Client aws bucket key revision = Except.error e) ∧
          NewS3ClientCalls aws bucket key = []) ∧
      ∀ c, NewS3Client aws bucket key revision = Except.ok c →
        bucket ≠ [] ∧ key ≠ [] ∧
          aws.newSession = none ∧ aws.headBucket = none ∧ aws.headObject = none ∧
          NewS3ClientCalls aws bucket key
            = [AwsCall.newSession, AwsCall.headBucket bucket, AwsCall.headObject bucket key] ∧
          c.bucket = bucket ∧ c.key = key ∧ c.revision = revision ∧
          c.vars = [] ∧ c.currRevision = [] := by
  constructor
  · intro h
    unfold NewS3Client NewS3ClientCalls
    by_cases hb : bucket = []
    · simp [hb]
    · have hk : key = [] := h.resolve_left hb
      simp [hb, hk]
  · intro c hc
    unfold NewS3Client at hc
    unfold NewS3ClientCalls
    by_cases hb : bucket = []
    · simp [hb] at hc
    · by_cases hk : key = []
      · simp [hb, hk] at hc
      · simp only [hb, hk, ↓reduceIte] at hc ⊢
        cases h1 : aws.newSession with
        | some e => simp [h1] at hc
        | none =>
          cases h2 : aws.headBucket with
          | some e => simp [h1, h2] at hc
          | none =>
            cases h3 : aws.headObject with
            | some e => simp [h1, h2, h3] at hc
            | none =>
              simp only [h1, h2, h3, Except.ok.injEq] at hc
              subst hc
              simp [hb, hk]

/-- Witness of C13: an empty key is refused before any call, and with every
call succeeding the client of the examples is returned. -/
theorem NewS3Client_validates_before_construction_witness :
    ((∃ e, NewS3Client ⟨none, none, none⟩ "cfg".toList [] 1 = Except.error e) ∧
        NewS3ClientCalls ⟨none, none, none⟩ "cfg".toList [] = []) ∧
      ("cfg".toList ≠ [] ∧ "app.json".toList ≠ [] ∧
        (⟨none, none, none⟩ : AwsReplies).newSession = none ∧
        (⟨none, none, none⟩ : AwsReplies).headBucket = none ∧
        (⟨none, none, none⟩ : AwsReplies).headObject = none ∧
        NewS3ClientCalls ⟨none, none, none⟩ "cfg".toList "app.json".toList
          = [AwsCall.newSession, AwsCall.headBucket "cfg".toList,
              AwsCall.headObject "cfg".toList "app.json".toList] ∧
        newClient.bucket = "cfg".toList ∧ newClient.key = "app.json".toList ∧
        newClient.revision = 1 ∧ newClient.vars = [] ∧ newClient.currRevision = []) :=
  ⟨(NewS3Client_validates_before_construction ⟨none, none, none⟩ "cfg".toList [] 1).1
      (Or.inr rfl),
    (NewS3Client_validates_before_construction ⟨none, none, none⟩ "cfg".toList
      "app.json".toList 1).2 newClient rfl⟩

/-! ## C15: Current -/

theorem Revision.run_current (r : Revision) (n : Nat) :
    r.run (List.replicate n RevCall.current) = (List.replicate n r.rev, r) := by
  induction n with
  | zero => rfl
  | succ n ih =>
    rw [List.replicate_succ, Revision.run]
    simp only [Revision.call, Revision.Current, ih, List.replicate_succ]

/-- C15: `Current()` returns the token the Revision stores and leaves the
Revision as it is; a Revision on which `Next` was never called stores the empty
string; and after a `Next()`, any number of `Current()` calls all return the
token that `Next()` returned, which is still the stored token afterwards. -/
theorem Revision_Current_returns_last_Next (r : Revision) (now : Time) (n : Nat) :
    r.call RevCall.current = (r.rev, r) ∧
      (⟨[]⟩ : Revision).Current = [] ∧
      r.run (RevCall.next now :: List.replicate n RevCall.current)
        = ((r.Next now).1 :: List.replicate n (r.Next now).1, (r.Next now).2) ∧
      (r.run (RevCall.next now :: List.replicate n RevCall.current)).2.Current
        = (r.Next now).1 := by
  have hrun : r.run (RevCall.next now :: List.replicate n RevCall.current)
      = ((r.Next now).1 :: List.replicate n (r.Next now).1, (r.Next now).2) := by
    rw [Revision.run]
    simp only [Revision.call, Revision.run_current]
    rfl
  refine ⟨rfl, rfl, hrun, ?_⟩
  rw [hrun]
  rfl

/-! ## C14: the tokens of Next -/

theorem nextTokens_eq (r : Revision) (nows : List Time) :
    nextTokens r nows = nows.map Format := by
  unfold nextTokens
  induction nows generalizing r with
  | nil => rfl
  | cons t nows ih =>
    rw [List.map_cons, Revision.run]
    simp only [Revision.call, Revision.Next, List.map_cons, List.cons.injEq, true_and]
    exact ih _

theorem strLt_ne (a b : GoString) (h : strLt a b = true) : a ≠ b := by
  induction a generalizing b with
  | nil =>
    cases b with
    | nil => simp [strLt] at h
    | cons y ys => simp
  | cons x xs ih =>
    cases b with
    | nil => simp
    | cons y ys =>
      intro heq
      cases heq
      simp only [strLt, lt_self_iff_false, decide_False, decide_True, Bool.true_and,
        Bool.false_or] at h
      exact ih xs h rfl

theorem strLt_append_left (a x y : GoString) (h : strLt x y = true) :
    strLt (a ++ x) (a ++ y) = true := by
  induction a with
  | nil => exact h
  | cons c a ih => simp [strLt, ih]

theorem strLt_append_of_lt (a b x y : GoString) (hlen : a.length = b.length)
    (h : strLt a b = true) : strLt (a ++ x) (b ++ y) = true := by
  induction a generalizing b with
  | nil =>
    cases b with
    | nil => simp [strLt] at h
    | cons c b => simp at hlen
  | cons c a ih =>
    cases b with
    | nil => simp at hlen
    | cons d b =>
      simp only [List.length_cons, Nat.add_right_cancel_iff] at hlen
      simp only [strLt, Bool.or_eq_true, decide_eq_true_eq, Bool.and_eq_true] at h
      simp only [List.cons_append, strLt, Bool.or_eq_true, decide_eq_true_eq, Bool.and_eq_true]
      rcases h with h | ⟨h1, h2⟩
      · exact Or.inl h
      · exact Or.inr ⟨h1, ih b hlen h2⟩

theorem digitChar_lt (a b : Nat) (hab : a < b) (hb : b < 10) : digitChar a < digitChar b := by
  interval_cases b <;> interval_cases a <;> decide

theorem strLt_digit_lt (a b : Nat) (x y : GoString) (hab : a < b) (hb : b < 10) :
    strLt (digitChar a :: x) (digitChar b :: y) = true := by
  simp [strLt, digitChar_lt a b hab hb]

theorem strLt_digit_eq (a : Nat) (x y : GoString) (h : strLt x y = true) :
    strLt (digitChar a :: x) (digitChar a :: y) = true := by
  simp [strLt, h]

theorem pad2_lt (n m : Nat) (hnm : n < m) (hm : m < 100) : strLt (pad2 n) (pad2 m) = true := by
  unfold pad2
  by_cases h1 : n / 10 % 10 < m / 10 % 10
  · exact strLt_digit_lt _ _ _ _ h1 (Nat.mod_lt _ (by decide))
  · have h2 : n / 10 % 10 = m / 10 % 10 := by omega
    rw [h2]
    apply strLt_digit_eq
    exact strLt_digit_lt _ _ _ _ (by omega) (Nat.mod_lt _ (by decide))

theorem pad3_lt (n m : Nat) (hnm : n < m) (hm : m < 1000) : strLt (pad3 n) (pad3 m) = true := by
  unfold pad3
  by_cases h1 : n / 100 % 10 < m / 100 % 10
  · exact strLt_digit_lt _ _ _ _ h1 (Nat.mod_lt _ (by decide))
  · have h2 : n / 100 % 10 = m / 100 % 10 := by omega
    rw [h2]
    apply strLt_digit_eq
    by_cases h3 : n / 10 % 10 < m / 10 % 10
    · exact strLt_digit_lt _ _ _ _ h3 (Nat.mod_lt _ (by decide))
    · have h4 : n / 10 % 10 = m / 10 % 10 := by omega
      rw [h4]
      apply strLt_digit_eq
      exact strLt_digit_lt _ _ _ _ (by omega) (Nat.mod_lt _ (by decide))

theorem formatYear_lt (n m : Nat) (hnm : n < m) (hm : m < 10000) :
    strLt (formatYear n) (formatYear m) = true := by
  unfold formatYear
  rw [if_pos (by omega), if_pos hm]
  by_cases h1 : n / 1000 % 10 < m / 1000 % 10
  · exact strLt_digit_lt _ _ _ _ h1 (Nat.mod_lt _ (by decide))
  · have h2 : n / 1000 % 10 = m / 1000 % 10 := by omega
    rw [h2]
    apply strLt_digit_eq
    by_cases h3 : n / 100 % 10 < m / 100 % 10
    · exact strLt_digit_lt _ _ _ _ h3 (Nat.mod_lt _ (by decide))
    · have h4 : n / 100 % 10 = m / 100 % 10 := by omega
      rw [h4]
      apply strLt_digit_eq
      by_cases h5 : n / 10 % 10 < m / 10 % 10
      · exact strLt_digit_lt _ _ _ _ h5 (Nat.mod_lt _ (by decide))
      · have h6 : n / 10 % 10 = m / 10 % 10 := by omega
        rw [h6]
        apply strLt_digit_eq
        exact strLt_digit_lt _ _ _ _ (by omega) (Nat.mod_lt _ (by decide))

theorem formatYear_length (n m : Nat) (hn : n < 10000) (hm : m < 10000) :
    (formatYear n).length = (formatYear m).length := by
  unfold formatYear
  rw [if_pos hn, if_pos hm]
  rfl

theorem strLt_cons (c : Char) (x y : GoString) (h : strLt x y = true) :
    strLt (c :: x) (c :: y) = true := by
  simp [strLt, h]

theorem Format_lt (a b : Time) (ha : a.valid) (hb : b.valid) (h : a.before b) :
    strLt (Format a) (Format b) = true := by
  obtain ⟨ha1, _, _, _, _, _, ha7⟩ := ha
  obtain ⟨hb1, hb2, hb3, hb4, hb5, hb6, hb7⟩ := hb
  unfold Format
  rcases h with h | ⟨e1, h⟩
  · exact strLt_append_of_lt (formatYear a.year) (formatYear b.year) _ _
      (formatYear_length _ _ ha1 hb1) (formatYear_lt _ _ h hb1)
  rw [e1]
  refine strLt_append_left (formatYear b.year) _ _ ?_
  rcases h with h | ⟨e2, h⟩
  · exact strLt_append_of_lt (pad2 a.month) (pad2 b.month) _ _ rfl (pad2_lt _ _ h hb2)
  rw [e2]
  refine strLt_append_left (pad2 b.month) _ _ ?_
  rcases h with h | ⟨e3, h⟩
  · exact strLt_append_of_lt (pad2 a.day) (pad2 b.day) _ _ rfl (pad2_lt _ _ h hb3)
  rw [e3]
  refine strLt_append_left (pad2 b.day) _ _ ?_
  refine strLt_cons '.' _ _ ?_
  rcases h with h | ⟨e4, h⟩
  · exact strLt_append_of_lt (pad2 a.hour) (pad2 b.hour) _ _ rfl (pad2_lt _ _ h hb4)
  rw [e4]
  refine strLt_append_left (pad2 b.hour) _ _ ?_
  rcases h with h | ⟨e5, h⟩
  · exact strLt_append_of_lt (pad2 a.minute) (pad2 b.minute) _ _ rfl (pad2_lt _ _ h hb5)
  rw [e5]
  refine strLt_append_left (pad2 b.minute) _ _ ?_
  rcases h with h | ⟨e6, h⟩
  · exact strLt_append_of_lt (pad2 a.second) (pad2 b.second) _ _ rfl (pad2_lt _ _ h hb6)
  rw [e6]
  refine strLt_append_left (pad2 b.second) _ _ ?_
  refine strLt_cons '.' _ _ ?_
  exact pad3_lt _ _ h (by omega)

theorem Time.before_trans (a b c : Time) (hab : a.before b) (hbc : b.before c) :
    a.before c := by
  unfold Time.before at *
  omega

/-- C14, as amended: for every sequence of `Next()` calls whose clock readings
have four-digit years and strictly increase in calendar order down to the
millisecond, each call returns a token that differs from, and is
lexicographically greater than, every token returned by an earlier call. -/
theorem Next_tokens_increase_with_clock (r : Revision) (nows : List Time)
    (hvalid : ∀ t ∈ nows, t.valid) (hclock : List.Chain' Time.before nows) :
    List.Pairwise (fun earlier later => strLt earlier later = true ∧ earlier ≠ later)
      (nextTokens r nows) := by
  haveI : IsTrans Time Time.before := ⟨Time.before_trans⟩
  have hpair : List.Pairwise Time.before nows := List.chain'_iff_pairwise.mp hclock
  rw [nextTokens_eq, List.pairwise_map]
  have hall : List.Pairwise (fun a b => a.valid ∧ b.valid ∧ a.before b) nows := by
    induction nows with
    | nil => exact List.Pairwise.nil
    | cons t nows ih =>
      rw [List.pairwise_cons] at hpair ⊢
      refine ⟨fun b hb => ⟨hvalid t (List.mem_cons_self _ _),
        hvalid b (List.mem_cons_of_mem _ hb), hpair.1 b hb⟩, ?_⟩
      exact ih (fun u hu => hvalid u (List.mem_cons_of_mem _ hu))
        (List.Chain'.tail hclock) hpair.2
  refine hall.imp ?_
  intro a b hab
  have hlt := Format_lt a b hab.1 hab.2.1 hab.2.2
  exact ⟨hlt, strLt_ne _ _ hlt⟩

/-- Witness of C14 as amended: two readings five minutes apart. -/
theorem Next_tokens_increase_with_clock_witness :
    ((∀ t ∈ [noon, fivePastNoon], t.valid) ∧ List.Chain' Time.before [noon, fivePastNoon]) ∧
      nextTokens ⟨[]⟩ [noon, fivePastNoon]
        = ["20240101.120000.000".toList, "20240101.120500.000".toList] ∧
      List.Pairwise (fun earlier later => strLt earlier later = true ∧ earlier ≠ later)
        (nextTokens ⟨[]⟩ [noon, fivePastNoon]) :=
  ⟨⟨by decide, List.chain'_pair.mpr (by decide)⟩, by decide,
    Next_tokens_increase_with_clock ⟨[]⟩ [noon, fivePastNoon] (by decide)
      (List.chain'_pair.mpr (by decide))⟩

/-- Counterexample to C14 as stated: two `Next()` calls whose clock readings lie
a microsecond apart, within one millisecond, return the same token. -/
theorem Next_tokens_counterexample :
    noon ≠ noonAndAMicrosecond ∧
      nextTokens ⟨[]⟩ [noon, noonAndAMicrosecond]
        = ["20240101.120000.000".toList, "20240101.120000.000".toList] ∧
      ¬ List.Pairwise (fun earlier later => strLt earlier later = true ∧ earlier ≠ later)
        (nextTokens ⟨[]⟩ [noon, noonAndAMicrosecond]) := by
  refine ⟨by decide, by decide, ?_⟩
  have h : nextTokens ⟨[]⟩ [noon, noonAndAMicrosecond]
      = ["20240101.120000.000".toList, "20240101.120000.000".toList] := by decide
  rw [h]
  intro hp
  rw [List.pairwise_cons] at hp
  exact (hp.1 _ (List.mem_cons_self _ _)).2 rfl

/-! ## The walk as a list of assignments -/

theorem stringKeysIface_cons_str (name : GoString) (v : Node) (rest : List (Node × Node)) :
    stringKeysIface ((Node.str name, v) :: rest) = (stringKeys v && stringKeysIface rest) := by
  rw [stringKeysIface]

theorem stringKeysIface_cons_other (k v : Node) (rest : List (Node × Node))
    (hk : ∀ name, k ≠ Node.str name) : stringKeysIface ((k, v) :: rest) = false := by
  cases k with
  | str name => exact absurd rfl (hk name)
  | _ => simp [stringKeysIface]

theorem walkIface_cons_other (fmtFloat : Float64 → GoString) (k v : Node)
    (rest : List (Node × Node)) (key : GoString) (vars : Vars)
    (hk : ∀ name, k ≠ Node.str name) :
    walkIface fmtFloat ((k, v) :: rest) key vars = none := by
  cases k with
  | str name => exact absurd rfl (hk name)
  | _ => simp [walkIface]

mutual
/-- The walk returns exactly on documents whose mapping keys are all strings,
and then leaves the map with its assignments made in order. -/
theorem nodeWalk_eq_assignAll (fmtFloat : Float64 → GoString) :
    ∀ (n : Node) (key : GoString) (vars : Vars),
      nodeWalk fmtFloat n key vars
        = if stringKeys n = true then some (assignAll vars (assignments fmtFloat n key))
          else none
  | .slice elems, key, vars => by
    rw [nodeWalk, stringKeys, assignments]
    exact walkSlice_eq_assignAll fmtFloat elems 0 key vars
  | .mapIface entries, key, vars => by
    rw [nodeWalk, stringKeys, assignments]
    exact walkIface_eq_assignAll fmtFloat entries key vars
  | .mapString entries, key, vars => by
    rw [nodeWalk, stringKeys, assignments]
    exact walkString_eq_assignAll fmtFloat entries key vars
  | .str _, _, _ => by simp [nodeWalk, stringKeys, assignments, assignAll]
  | .int _, _, _ => by simp [nodeWalk, stringKeys, assignments, assignAll]
  | .bool _, _, _ => by simp [nodeWalk, stringKeys, assignments, assignAll]
  | .float64 _, _, _ => by simp [nodeWalk, stringKeys, assignments, assignAll]
  | .other, _, _ => by simp [nodeWalk, stringKeys, assignments, assignAll]
theorem walkSlice_eq_assignAll (fmtFloat : Float64 → GoString) :
    ∀ (elems : List Node) (i : Nat) (key : GoString) (vars : Vars),
      walkSlice fmtFloat elems i key vars
        = if stringKeysSlice elems = true then
            some (assignAll vars (sliceAssignments fmtFloat elems i key))
          else none
  | [], _, _, _ => by simp [walkSlice, stringKeysSlice, sliceAssignments, assignAll]
  | j :: rest, i, key, vars => by
    rw [walkSlice, stringKeysSlice, sliceAssignments, nodeWalk_eq_assignAll fmtFloat j]
    by_cases hj : stringKeys j = true
    · simp only [hj, ↓reduceIte, Bool.true_and]
      rw [walkSlice_eq_assignAll fmtFloat rest (i + 1) key, assignAll_append]
    · simp [hj]
theorem walkIface_eq_assignAll (fmtFloat : Float64 → GoString) :
    ∀ (entries : List (Node × Node)) (key : GoString) (vars : Vars),
      walkIface fmtFloat entries key vars
        = if stringKeysIface entries = true then
            some (assignAll vars (ifaceAssignments fmtFloat entries key))
          else none
  | [], _, _ => by simp [walkIface, stringKeysIface, ifaceAssignments, assignAll]
  | (k, v) :: rest, key, vars => by
    by_cases hk : ∃ name, k = Node.str name
    · obtain ⟨name, rfl⟩ := hk
      rw [walkIface, stringKeysIface_cons_str, ifaceAssignments,
        nodeWalk_eq_assignAll fmtFloat v]
      by_cases hv : stringKeys v = true
      · simp only [hv, ↓reduceIte, Bool.true_and]
        rw [walkIface_eq_assignAll fmtFloat rest key, assignAll_append]
      · simp [hv]
    · have hk2 : ∀ name, k ≠ Node.str name := fun name h => hk ⟨name, h⟩
      rw [walkIface_cons_other fmtFloat k v rest key vars hk2,
        stringKeysIface_cons_other k v rest hk2]
      simp
theorem walkString_eq_assignAll (fmtFloat : Float64 → GoString) :
    ∀ (entries : List (GoString × Node)) (key : GoString) (vars : Vars),
      walkString fmtFloat entries key vars
        = if stringKeysString entries = true then
            some (assignAll vars (stringAssignments fmtFloat entries key))
          else none
  | [], _, _ => by simp [walkString, stringKeysString, stringAssignments, assignAll]
  | (k, v) :: rest, key, vars => by
    rw [walkString, stringKeysString, stringAssignments, nodeWalk_eq_assignAll fmtFloat v]
    by_cases hv : stringKeys v = true
    · simp only [hv, ↓reduceIte, Bool.true_and]
      rw [walkString_eq_assignAll fmtFloat rest key, assignAll_append]
    · simp [hv]
end

theorem ifaceAssignments_cons_str (fmtFloat : Float64 → GoString) (name : GoString) (v : Node)
    (rest : List (Node × Node)) (key : GoString) :
    ifaceAssignments fmtFloat ((Node.str name, v) :: rest) key
      = assignments fmtFloat v (Join key name) ++ ifaceAssignments fmtFloat rest key := by
  rw [ifaceAssignments]

theorem ifaceAssignments_cons_other (fmtFloat : Float64 → GoString) (k v : Node)
    (rest : List (Node × Node)) (key : GoString) (hk : ∀ name, k ≠ Node.str name) :
    ifaceAssignments fmtFloat ((k, v) :: rest) key = ifaceAssignments fmtFloat rest key := by
  cases k with
  | str name => exact absurd rfl (hk name)
  | _ => simp [ifaceAssignments]

mutual
theorem assignments_length (fmtFloat : Float64 → GoString) :
    ∀ (n : Node) (key : GoString), stringKeys n = true →
      (assignments fmtFloat n key).length = leaves n
  | .slice elems, key, h => by
    rw [stringKeys] at h
    rw [assignments, leaves]
    exact sliceAssignments_length fmtFloat elems 0 key h
  | .mapIface entries, key, h => by
    rw [stringKeys] at h
    rw [assignments, leaves]
    exact ifaceAssignments_length fmtFloat entries key h
  | .mapString entries, key, h => by
    rw [stringKeys] at h
    rw [assignments, leaves]
    exact stringAssignments_length fmtFloat entries key h
  | .str _, _, _ => by simp [assignments, leaves]
  | .int _, _, _ => by simp [assignments, leaves]
  | .bool _, _, _ => by simp [assignments, leaves]
  | .float64 _, _, _ => by simp [assignments, leaves]
  | .other, _, _ => by simp [assignments, leaves]
theorem sliceAssignments_length (fmtFloat : Float64 → GoString) :
    ∀ (elems : List Node) (i : Nat) (key : GoString), stringKeysSlice elems = true →
      (sliceAssignments fmtFloat elems i key).length = leavesSlice elems
  | [], _, _, _ => by simp [sliceAssignments, leavesSlice]
  | j :: rest, i, key, h => by
    rw [stringKeysSlice, Bool.and_eq_true] at h
    rw [sliceAssignments, leavesSlice, List.length_append,
      assignments_length fmtFloat j _ h.1, sliceAssignments_length fmtFloat rest (i + 1) key h.2]
theorem ifaceAssignments_length (fmtFloat : Float64 → GoString) :
    ∀ (entries : List (Node × Node)) (key : GoString), stringKeysIface entries = true →
      (ifaceAssignments fmtFloat entries key).length = leavesIface entries
  | [], _, _ => by simp [ifaceAssignments, leavesIface]
  | (k, v) :: rest, key, h => by
    obtain ⟨name, rfl, h1, h2⟩ := stringKeysIface_cons k v rest h
    rw [ifaceAssignments_cons_str, leavesIface, List.length_append,
      assignments_length fmtFloat v _ h1, ifaceAssignments_length fmtFloat rest key h2]
theorem stringAssignments_length (fmtFloat : Float64 → GoString) :
    ∀ (entries : List (GoString × Node)) (key : GoString), stringKeysString entries = true →
      (stringAssignments fmtFloat entries key).length = leavesString entries
  | [], _, _ => by simp [stringAssignments, leavesString]
  | (k, v) :: rest, key, h => by
    rw [stringKeysString, Bool.and_eq_true] at h
    rw [stringAssignments, leavesString, List.length_append,
      assignments_length fmtFloat v _ h.1, stringAssignments_length fmtFloat rest key h.2]
end

/-! ## C18: nodes without scalar leaves -/

/-- C18: for every path `p` and every map `vars`, the walk leaves `vars` as it
is when the node is an empty object, an empty array, or a value of none of the
classified types (a JSON null); and, for every document whose mapping keys are
strings, the walk makes exactly one assignment per scalar leaf, so that an
object or an array never becomes an entry itself: a document without scalar
leaves leaves `vars` unchanged. -/
theorem nodeWalk_records_only_leaves (fmtFloat : Float64 → GoString) (p : GoString)
    (vars : Vars) :
    nodeWalk fmtFloat (Node.mapString []) p vars = some vars ∧
      nodeWalk fmtFloat (Node.mapIface []) p vars = some vars ∧
      nodeWalk fmtFloat (Node.slice []) p vars = some vars ∧
      nodeWalk fmtFloat Node.other p vars = some vars ∧
      (∀ n, stringKeys n = true →
        ∃ es, nodeWalk fmtFloat n p vars = some (assignAll vars es) ∧ es.length = leaves n) ∧
      (∀ n, stringKeys n = true → leaves n = 0 → nodeWalk fmtFloat n p vars = some vars) := by
  refine ⟨by rw [nodeWalk, walkString], by rw [nodeWalk, walkIface], by rw [nodeWalk, walkSlice],
    by rw [nodeWalk], fun n hn => ?_, fun n hn h0 => ?_⟩
  · refine ⟨assignments fmtFloat n p, ?_, assignments_length fmtFloat n p hn⟩
    rw [nodeWalk_eq_assignAll, if_pos hn]
  · have hlen := assignments_length fmtFloat n p hn
    rw [h0] at hlen
    rw [nodeWalk_eq_assignAll, if_pos hn, List.length_eq_zero.mp hlen]
    rfl

/-- Witness of C18: an object holding an empty array, an empty object and a
null has no scalar leaf and leaves the cache of the examples unchanged. -/
theorem nodeWalk_records_only_leaves_witness :
    (stringKeys hollowDoc = true ∧ leaves hollowDoc = 0) ∧
      nodeWalk exampleLibs.fmtFloat hollowDoc "/".toList exampleFresh.vars
        = some exampleFresh.vars :=
  ⟨by decide,
    (nodeWalk_records_only_leaves exampleLibs.fmtFloat "/".toList exampleFresh.vars).2.2.2.2.2
      hollowDoc (by decide) (by decide)⟩

/-! ## C20: rooted keys -/

theorem Clean_rooted (p : GoString) (h : p.head? = some '/') : (Clean p).head? = some '/' := by
  have hne : p ≠ [] := by
    intro hp
    rw [hp] at h
    cases h
  unfold Clean
  rw [if_neg hne]
  simp [h]

theorem Join_rooted (key s : GoString) (h : key.head? = some '/') :
    (Join key s).head? = some '/' := by
  have hne : key ≠ [] := by
    intro hp
    rw [hp] at h
    cases h
  unfold Join
  rw [if_neg hne]
  apply Clean_rooted
  cases key with
  | nil => exact absurd rfl hne
  | cons c rest => simpa using h

mutual
theorem assignments_rooted (fmtFloat : Float64 → GoString) :
    ∀ (n : Node) (key : GoString), key.head? = some '/' →
      ∀ e ∈ assignments fmtFloat n key, e.1.head? = some '/'
  | .slice elems, key, h => by
    rw [assignments]
    exact sliceAssignments_rooted fmtFloat elems 0 key h
  | .mapIface entries, key, h => by
    rw [assignments]
    exact ifaceAssignments_rooted fmtFloat entries key h
  | .mapString entries, key, h => by
    rw [assignments]
    exact stringAssignments_rooted fmtFloat entries key h
  | .str _, key, h => by
    intro e he
    rw [assignments, List.mem_singleton] at he
    rw [he]
    exact h
  | .int _, key, h => by
    intro e he
    rw [assignments, List.mem_singleton] at he
    rw [he]
    exact h
  | .bool _, key, h => by
    intro e he
    rw [assignments, List.mem_singleton] at he
    rw [he]
    exact h
  | .float64 _, key, h => by
    intro e he
    rw [assignments, List.mem_singleton] at he
    rw [he]
    exact h
  | .other, _, _ => by simp [assignments]
theorem sliceAssignments_rooted (fmtFloat : Float64 → GoString) :
    ∀ (elems : List Node) (i : Nat) (key : GoString), key.head? = some '/' →
      ∀ e ∈ sliceAssignments fmtFloat elems i key, e.1.head? = some '/'
  | [], _, _, _ => by simp [sliceAssignments]
  | j :: rest, i, key, h => by
    intro e he
    rw [sliceAssignments] at he
    rcases List.mem_append.mp he with h1 | h1
    · exact assignments_rooted fmtFloat j _ (Join_rooted key _ h) e h1
    · exact sliceAssignments_rooted fmtFloat rest (i + 1) key h e h1
theorem ifaceAssignments_rooted (fmtFloat : Float64 → GoString) :
    ∀ (entries : List (Node × Node)) (key : GoString), key.head? = some '/' →
      ∀ e ∈ ifaceAssignments fmtFloat entries key, e.1.head? = some '/'
  | [], _, _ => by simp [ifaceAssignments]
  | (k, v) :: rest, key, h => by
    intro e he
    by_cases hk : ∃ name, k = Node.str name
    · obtain ⟨name, rfl⟩ := hk
      rw [ifaceAssignments_cons_str] at he
      rcases List.mem_append.mp he with h1 | h1
      · exact assignments_rooted fmtFloat v _ (Join_rooted key _ h) e h1
      · exact ifaceAssignments_rooted fmtFloat rest key h e h1
    · have hk2 : ∀ name, k ≠ Node.str name := fun name h => hk ⟨name, h⟩
      rw [ifaceAssignments_cons_other fmtFloat k v rest key hk2] at he
      exact ifaceAssignments_rooted fmtFloat rest key h e he
theorem stringAssignments_rooted (fmtFloat : Float64 → GoString) :
    ∀ (entries : List (GoString × Node)) (key : GoString), key.head? = some '/' →
      ∀ e ∈ stringAssignments fmtFloat entries key, e.1.head? = some '/'
  | [], _, _ => by simp [stringAssignments]
  | (k, v) :: rest, key, h => by
    intro e he
    rw [stringAssignments] at he
    rcases List.mem_append.mp he with h1 | h1
    · exact assignments_rooted fmtFloat v _ (Join_rooted key _ h) e h1
    · exact stringAssignments_rooted fmtFloat rest key h e h1
end

theorem mapKeys_assignAll (vars es : Vars) (k : GoString)
    (h : k ∈ mapKeys (assignAll vars es)) : k ∈ mapKeys vars ∨ k ∈ mapKeys es := by
  induction es generalizing vars with
  | nil => exact Or.inl h
  | cons e es ih =>
    have hstep : assignAll vars (e :: es) = assignAll (mapSet vars e.1 e.2) es := rfl
    rw [hstep] at h
    rcases ih _ h with h1 | h1
    · rw [mapKeys_mapSet] at h1
      rcases List.mem_cons.mp h1 with h2 | h2
      · right
        rw [h2]
        exact List.mem_map_of_mem Prod.fst (List.mem_cons_self _ _)
      · exact Or.inl (List.mem_filter.mp h2).1
    · right
      simp only [mapKeys, List.map_cons]
      exact List.mem_cons_of_mem _ h1

theorem rooted_iff_starts_with_slash (k : GoString) : k.head? = some '/' ↔ "/".toList <+: k := by
  cases k with
  | nil => simp
  | cons c rest =>
    constructor
    · intro h
      simp only [List.head?_cons, Option.some.injEq] at h
      rw [h]
      exact ⟨rest, rfl⟩
    · rintro ⟨t, ht⟩
      cases ht
      rfl

/-- Every key the walk from the root path records starts with a slash. -/
theorem nodeWalk_root_keys (fmtFloat : Float64 → GoString) (D : Node) (vars : Vars)
    (h : nodeWalk fmtFloat D "/".toList [] = some vars) :
    ∀ k ∈ mapKeys vars, "/".toList <+: k := by
  rw [nodeWalk_eq_assignAll] at h
  split at h
  · cases h
    intro k hk
    rcases mapKeys_assignAll [] _ k hk with h1 | h1
    · cases h1
    · obtain ⟨e, he, rfl⟩ := List.mem_map.mp h1
      exact (rooted_iff_starts_with_slash _).mp (assignments_rooted fmtFloat D "/".toList rfl e he)
  · cases h

theorem option_eq_of_some_iff (a b : Option GoString) (h : ∀ v, a = some v ↔ b = some v) :
    a = b := by
  cases a with
  | none =>
    cases b with
    | none => rfl
    | some w => exact absurd ((h w).mpr rfl) (by simp)
  | some v => exact ((h v).mp rfl).symm

theorem filterVars_root (vars : Vars) (hroot : ∀ k ∈ mapKeys vars, "/".toList <+: k)
    (k : GoString) : mapGet (filterVars vars ["/".toList]) k = mapGet vars k := by
  apply option_eq_of_some_iff
  intro v
  rw [mapGet_filterVars]
  constructor
  · exact fun h => h.1
  · intro h
    have hk : k ∈ mapKeys vars := (mapGet_isSome_iff vars k).mp (by rw [h]; rfl)
    exact ⟨h, "/".toList, List.mem_singleton.mpr rfl, hroot k hk⟩

theorem filterVars_no_keys (vars : Vars) : filterVars vars [] = [] := by
  unfold filterVars
  induction mapKeys vars with
  | nil => rfl
  | cons k ks ih =>
    rw [List.foldl_cons, List.foldl_nil]
    exact ih

theorem producedByFetch_keys (vars : Vars) (h : producedByFetch vars) :
    ∀ k ∈ mapKeys vars, "/".toList <+: k := by
  obtain ⟨libs, c, reply, hf⟩ := h
  obtain ⟨doc, _, hw⟩ := fetch_vars_decoded libs c reply vars hf
  exact nodeWalk_root_keys libs.fmtFloat doc vars hw

/-- C20: every key the walk started from `/` records begins with `/`, whatever
the field names of the document; so on a client whose cache was produced by a
fetch, a successful `GetValues` of the one key `/` returns the whole cached
namespace, as it stands after the refresh step, and a successful `GetValues` of
the empty key list returns the empty map. -/
theorem GetValues_root_returns_whole_cache (libs : Libs) (c : Client) (r : Revision)
    (reply : StoreReply) :
    (∀ (D : Node) (vars : Vars), nodeWalk libs.fmtFloat D "/".toList [] = some vars →
        ∀ k ∈ mapKeys vars, "/".toList <+: k) ∧
      (∀ m, producedByFetch c.vars →
        (GetValues libs c r reply ["/".toList]).ret = Ret.ok m →
        ∀ k, mapGet m k = mapGet (GetValues libs c r reply ["/".toList]).client.vars k) ∧
      (∀ m, (GetValues libs c r reply []).ret = Ret.ok m → m = []) := by
  refine ⟨fun D vars h => nodeWalk_root_keys libs.fmtFloat D vars h, fun m hc hm k => ?_,
    fun m hm => ?_⟩
  · by_cases hrev : c.currRevision = r.Current
    · rw [GetValues_fresh libs c r reply _ hrev] at hm ⊢
      cases hm
      exact filterVars_root c.vars (producedByFetch_keys c.vars hc) k
    · rw [GetValues_stale libs c r reply _ hrev] at hm ⊢
      cases hf : fetch libs c reply with
      | err e => rw [hf] at hm; cases hm
      | panicked => rw [hf] at hm; cases hm
      | vars vars =>
        rw [hf] at hm
        cases hm
        exact filterVars_root vars (producedByFetch_keys vars ⟨libs, c, reply, hf⟩) k
  · by_cases hrev : c.currRevision = r.Current
    · rw [GetValues_fresh libs c r reply _ hrev] at hm
      cases hm
      exact filterVars_no_keys _
    · rw [GetValues_stale libs c r reply _ hrev] at hm
      cases hf : fetch libs c reply with
      | err e => rw [hf] at hm; cases hm
      | panicked => rw [hf] at hm; cases hm
      | vars vars =>
        rw [hf] at hm
        cases hm
        exact filterVars_no_keys _

/-- Witness of C20: the client that fetched the service document returns both
entries for the key `/` and none for the empty key list. -/
theorem GetValues_root_returns_whole_cache_witness :
    (producedByFetch serviceClient.vars ∧
        (GetValues exampleLibs serviceClient ⟨"20240101.120000.000".toList⟩
          (StoreReply.body []) ["/".toList]).ret
          = Ret.ok [("/service/port".toList, "8080".toList),
              ("/service/enabled".toList, "true".toList)] ∧
        (GetValues exampleLibs serviceClient ⟨"20240101.120000.000".toList⟩
          (StoreReply.body []) []).ret = Ret.ok []) ∧
      (∀ k, mapGet [("/service/port".toList, "8080".toList),
            ("/service/enabled".toList, "true".toList)] k
          = mapGet (GetValues exampleLibs serviceClient ⟨"20240101.120000.000".toList⟩
              (StoreReply.body []) ["/".toList]).client.vars k) ∧
      ([] : Vars) = [] :=
  ⟨⟨⟨exampleLibs, newClient, StoreReply.body [], rfl⟩, by decide, by decide⟩,
    (GetValues_root_returns_whole_cache exampleLibs serviceClient
      ⟨"20240101.120000.000".toList⟩ (StoreReply.body [])).2.1 _
      ⟨exampleLibs, newClient, StoreReply.body [], rfl⟩ (by decide),
    (GetValues_root_returns_whole_cache exampleLibs serviceClient
      ⟨"20240101.120000.000".toList⟩ (StoreReply.body [])).2.2 _ (by decide)⟩

/-! ## C12 and C16: the backend factory -/

theorem withDefaultBackend_of_ne (config : Config) (h : config.Backend ≠ []) :
    withDefaultBackend config = config := by
  unfold withDefaultBackend
  rw [if_neg h]

/-- An empty backend kind behaves as `etcd`. -/
theorem New_default (env : Backends) (config : Config) (revision : Nat)
    (hkind : config.Backend = []) :
    New env config revision = New env { config with Backend := "etcd".toList } revision := by
  unfold New
  have h1 : withDefaultBackend config = { config with Backend := "etcd".toList } := by
    unfold withDefaultBackend
    rw [if_pos hkind]
  have h2 : withDefaultBackend { config with Backend := "etcd".toList }
      = { config with Backend := "etcd".toList } :=
    withDefaultBackend_of_ne _ (List.cons_ne_nil _ _)
  rw [h1, h2]

/-- The dispatch of `New` away from the defect: a backend kind of the table, with
a first node when the kind is vault, calls the constructor the table assigns
and returns what it returns. -/
theorem New_dispatch (env : Backends) (config : Config) (revision : Nat) (node : GoString)
    (call : Call) (hne : config.Backend ≠ [])
    (hcall : tableCall config revision node = some call)
    (hnode : config.Backend = "vault".toList → ∃ rest, config.BackendNodes = node :: rest)
    (hs3 : config.Backend ≠ "s3".toList) :
    New env config revision = invoke env call := by
  unfold New
  rw [withDefaultBackend_of_ne config hne]
  unfold tableCall at hcall
  unfold dispatch
  by_cases h1 : config.Backend = "consul".toList
  · rw [if_pos h1] at hcall ⊢
    rw [Option.some.inj hcall]
  rw [if_neg h1] at hcall ⊢
  by_cases h2 : config.Backend = "etcd".toList
  · rw [if_pos h2] at hcall ⊢
    rw [Option.some.inj hcall]
  rw [if_neg h2] at hcall ⊢
  by_cases h3 : config.Backend = "zookeeper".toList
  · rw [if_pos h3] at hcall ⊢
    rw [Option.some.inj hcall]
  rw [if_neg h3] at hcall ⊢
  by_cases h4 : config.Backend = "redis".toList
  · rw [if_pos h4] at hcall ⊢
    rw [Option.some.inj hcall]
  rw [if_neg h4] at hcall ⊢
  by_cases h5 : config.Backend = "env".toList
  · rw [if_pos h5] at hcall ⊢
    rw [Option.some.inj hcall]
  rw [if_neg h5] at hcall ⊢
  by_cases h6 : config.Backend = "file".toList
  · rw [if_pos h6] at hcall ⊢
    rw [Option.some.inj hcall]
  rw [if_neg h6] at hcall ⊢
  by_cases h7 : config.Backend = "vault".toList
  · rw [if_pos h7] at hcall ⊢
    obtain ⟨rest, hrest⟩ := hnode h7
    rw [hrest, ← Option.some.inj hcall]
  rw [if_neg h7] at hcall ⊢
  by_cases h8 : config.Backend = "dynamodb".toList
  · rw [if_pos h8] at hcall ⊢
    rw [Option.some.inj hcall]
  rw [if_neg h8] at hcall ⊢
  by_cases h9 : config.Backend = "ssm".toList
  · rw [if_pos h9] at hcall ⊢
    rw [Option.some.inj hcall]
  rw [if_neg h9] at hcall ⊢
  rw [if_neg hs3] at hcall
  cases hcall

/-- The s3 case of `New` calls `NewS3Client` with the bucket, key and revision
and returns what it returns. -/
theorem New_s3 (env : Backends) (config : Config) (revision : Nat)
    (hkind : config.Backend = "s3".toList) :
    New env config revision =
      ⟨[Call.s3New config.Bucket config.Key revision],
        NewRet.returned
          (match NewS3Client env.aws config.Bucket config.Key revision with
            | Except.ok c => Except.ok (StoreClient.s3 c)
            | Except.error e => Except.error e)⟩ := by
  unfold New
  rw [withDefaultBackend_of_ne config (by rw [hkind]; decide)]
  unfold dispatch
  rw [if_neg (by rw [hkind]; decide), if_neg (by rw [hkind]; decide),
    if_neg (by rw [hkind]; decide), if_neg (by rw [hkind]; decide),
    if_neg (by rw [hkind]; decide), if_neg (by rw [hkind]; decide),
    if_neg (by rw [hkind]; decide), if_neg (by rw [hkind]; decide),
    if_neg (by rw [hkind]; decide), if_pos hkind]

/-- A backend kind outside the table calls no constructor and returns the error
`Invalid backend`. -/
theorem New_unknown (env : Backends) (config : Config) (revision : Nat) (node : GoString)
    (hne : config.Backend ≠ []) (hcall : tableCall config revision node = none) :
    New env config revision
      = ⟨[], NewRet.returned (Except.error ⟨"Invalid backend".toList⟩)⟩ := by
  unfold New
  rw [withDefaultBackend_of_ne config hne]
  unfold tableCall at hcall
  unfold dispatch
  by_cases h1 : config.Backend = "consul".toList
  · rw [if_pos h1] at hcall
    cases hcall
  rw [if_neg h1] at hcall ⊢
  by_cases h2 : config.Backend = "etcd".toList
  · rw [if_pos h2] at hcall
    cases hcall
  rw [if_neg h2] at hcall ⊢
  by_cases h3 : config.Backend = "zookeeper".toList
  · rw [if_pos h3] at hcall
    cases hcall
  rw [if_neg h3] at hcall ⊢
  by_cases h4 : config.Backend = "redis".toList
  · rw [if_pos h4] at hcall
    cases hcall
  rw [if_neg h4] at hcall ⊢
  by_cases h5 : config.Backend = "env".toList
  · rw [if_pos h5] at hcall
    cases hcall
  rw [if_neg h5] at hcall ⊢
  by_cases h6 : config.Backend = "file".toList
  · rw [if_pos h6] at hcall
    cases hcall
  rw [if_neg h6] at hcall ⊢
  by_cases h7 : config.Backend = "vault".toList
  · rw [if_pos h7] at hcall
    cases hcall
  rw [if_neg h7] at hcall ⊢
  by_cases h8 : config.Backend = "dynamodb".toList
  · rw [if_pos h8] at hcall
    cases hcall
  rw [if_neg h8] at hcall ⊢
  by_cases h9 : config.Backend = "ssm".toList
  · rw [if_pos h9] at hcall
    cases hcall
  rw [if_neg h9] at hcall ⊢
  by_cases h10 : config.Backend = "s3".toList
  · rw [if_pos h10] at hcall
    cases hcall
  rw [if_neg h10]

/-- The vault case of `New` with an empty node list panics before any
constructor is called. -/
theorem New_vault_nil (env : Backends) (config : Config) (revision : Nat)
    (hkind : config.Backend = "vault".toList) (hnodes : config.BackendNodes = []) :
    New env config revision = ⟨[], NewRet.panicked⟩ := by
  unfold New
  rw [withDefaultBackend_of_ne config (by rw [hkind]; decide)]
  unfold dispatch
  rw [if_neg (by rw [hkind]; decide), if_neg (by rw [hkind]; decide),
    if_neg (by rw [hkind]; decide), if_neg (by rw [hkind]; decide),
    if_neg (by rw [hkind]; decide), if_neg (by rw [hkind]; decide), if_pos hkind, hnodes]

/-- C12, at the failing input: for the backend kind `vault` and an empty node
list, `New` calls no constructor, the vault constructor included, and returns
no result. -/
theorem New_vault_dispatch_without_nodes :
    vaultAppRoleNoNodes.Backend = "vault".toList ∧
      (New exampleBackends vaultAppRoleNoNodes 1).calls = [] ∧
      ∀ result, New exampleBackends vaultAppRoleNoNodes 1
        ≠ ⟨(New exampleBackends vaultAppRoleNoNodes 1).calls, NewRet.returned result⟩ := by
  have h : New exampleBackends vaultAppRoleNoNodes 1 = ⟨[], NewRet.panicked⟩ :=
    New_vault_nil exampleBackends vaultAppRoleNoNodes 1 rfl rfl
  refine ⟨rfl, by rw [h], fun result hres => ?_⟩
  rw [h] at hres
  cases hres

/-- C16, at the failing input: for a vault configuration that lacks the node
list, `New` does not return: indexing the first node panics. -/
theorem New_vault_without_nodes_panics :
    vaultNoNodes.BackendNodes = [] ∧
      New exampleBackends vaultNoNodes 1 = ⟨[], NewRet.panicked⟩ :=
  ⟨rfl, rfl⟩

/-! ## C19: the order of iteration -/

theorem stringAssignments_append (fmtFloat : Float64 → GoString)
    (pre post : List (GoString × Node)) (key : GoString) :
    stringAssignments fmtFloat (pre ++ post) key
      = stringAssignments fmtFloat pre key ++ stringAssignments fmtFloat post key := by
  induction pre with
  | nil => simp [stringAssignments]
  | cons e pre ih =>
    obtain ⟨k, v⟩ := e
    rw [List.cons_append, stringAssignments, stringAssignments, ih, List.append_assoc]

theorem ifaceAssignments_append (fmtFloat : Float64 → GoString)
    (pre post : List (Node × Node)) (key : GoString) :
    ifaceAssignments fmtFloat (pre ++ post) key
      = ifaceAssignments fmtFloat pre key ++ ifaceAssignments fmtFloat post key := by
  induction pre with
  | nil => simp [ifaceAssignments]
  | cons e pre ih =>
    obtain ⟨k, v⟩ := e
    by_cases hk : ∃ name, k = Node.str name
    · obtain ⟨name, rfl⟩ := hk
      rw [List.cons_append, ifaceAssignments_cons_str, ifaceAssignments_cons_str, ih,
        List.append_assoc]
    · have hk2 : ∀ name, k ≠ Node.str name := fun name h => hk ⟨name, h⟩
      rw [List.cons_append, ifaceAssignments_cons_other _ _ _ _ _ hk2,
        ifaceAssignments_cons_other _ _ _ _ _ hk2, ih]

theorem sliceAssignments_append (fmtFloat : Float64 → GoString) (pre post : List Node)
    (i : Nat) (key : GoString) :
    sliceAssignments fmtFloat (pre ++ post) i key
      = sliceAssignments fmtFloat pre i key
        ++ sliceAssignments fmtFloat post (i + pre.length) key := by
  induction pre generalizing i with
  | nil => simp [sliceAssignments]
  | cons e pre ih =>
    rw [List.cons_append, sliceAssignments, sliceAssignments, ih, List.append_assoc,
      List.length_cons]
    congr 3
    omega

theorem stringAssignments_perm (fmtFloat : Float64 → GoString)
    {es fs : List (GoString × Node)} (h : es.Perm fs) (key : GoString) :
    (stringAssignments fmtFloat es key).Perm (stringAssignments fmtFloat fs key) := by
  induction h with
  | nil => exact List.Perm.refl _
  | cons x _ ih =>
    obtain ⟨k, v⟩ := x
    rw [stringAssignments, stringAssignments]
    exact List.Perm.append_left _ ih
  | swap x y l =>
    obtain ⟨k, v⟩ := x
    obtain ⟨k1, v1⟩ := y
    rw [stringAssignments, stringAssignments, stringAssignments, stringAssignments]
    exact List.perm_append_comm_assoc _ _ _
  | trans _ _ ih1 ih2 => exact ih1.trans ih2

theorem ifaceAssignments_cons (fmtFloat : Float64 → GoString) (e : Node × Node)
    (rest : List (Node × Node)) (key : GoString) :
    ifaceAssignments fmtFloat (e :: rest) key
      = ifaceAssignments fmtFloat [e] key ++ ifaceAssignments fmtFloat rest key :=
  ifaceAssignments_append fmtFloat [e] rest key

theorem ifaceAssignments_perm (fmtFloat : Float64 → GoString)
    {es fs : List (Node × Node)} (h : es.Perm fs) (key : GoString) :
    (ifaceAssignments fmtFloat es key).Perm (ifaceAssignments fmtFloat fs key) := by
  induction h with
  | nil => exact List.Perm.refl _
  | @cons x l1 l2 _ ih =>
    rw [ifaceAssignments_cons fmtFloat x l1, ifaceAssignments_cons fmtFloat x l2]
    exact List.Perm.append_left _ ih
  | swap x y l =>
    rw [ifaceAssignments_cons fmtFloat y (x :: l), ifaceAssignments_cons fmtFloat x l,
      ifaceAssignments_cons fmtFloat x (y :: l), ifaceAssignments_cons fmtFloat y l]
    exact List.perm_append_comm_assoc _ _ _
  | trans _ _ ih1 ih2 => exact ih1.trans ih2

theorem stringKeysString_append (pre post : List (GoString × Node)) :
    stringKeysString (pre ++ post) = (stringKeysString pre && stringKeysString post) := by
  induction pre with
  | nil => simp [stringKeysString]
  | cons e pre ih =>
    obtain ⟨k, v⟩ := e
    rw [List.cons_append, stringKeysString, stringKeysString, ih, Bool.and_assoc]

theorem stringKeysSlice_append (pre post : List Node) :
    stringKeysSlice (pre ++ post) = (stringKeysSlice pre && stringKeysSlice post) := by
  induction pre with
  | nil => simp [stringKeysSlice]
  | cons e pre ih =>
    rw [List.cons_append, stringKeysSlice, stringKeysSlice, ih, Bool.and_assoc]

theorem stringKeysIface_append (pre post : List (Node × Node)) :
    stringKeysIface (pre ++ post) = (stringKeysIface pre && stringKeysIface post) := by
  induction pre with
  | nil => simp [stringKeysIface]
  | cons e pre ih =>
    obtain ⟨k, v⟩ := e
    by_cases hk : ∃ name, k = Node.str name
    · obtain ⟨name, rfl⟩ := hk
      rw [List.cons_append, stringKeysIface_cons_str, stringKeysIface_cons_str, ih,
        Bool.and_assoc]
    · have hk2 : ∀ name, k ≠ Node.str name := fun name h => hk ⟨name, h⟩
      rw [List.cons_append, stringKeysIface_cons_other _ _ _ hk2,
        stringKeysIface_cons_other _ _ _ hk2, Bool.false_and]

theorem stringKeysString_perm {es fs : List (GoString × Node)} (h : es.Perm fs) :
    stringKeysString es = stringKeysString fs := by
  induction h with
  | nil => rfl
  | cons x _ ih =>
    obtain ⟨k, v⟩ := x
    rw [stringKeysString, stringKeysString, ih]
  | swap x y l =>
    obtain ⟨k, v⟩ := x
    obtain ⟨k1, v1⟩ := y
    rw [stringKeysString, stringKeysString, stringKeysString, stringKeysString,
      Bool.and_left_comm]
  | trans _ _ ih1 ih2 => exact ih1.trans ih2

theorem stringKeysIface_cons_split (e : Node × Node) (rest : List (Node × Node)) :
    stringKeysIface (e :: rest) = (stringKeysIface [e] && stringKeysIface rest) :=
  stringKeysIface_append [e] rest

theorem stringKeysIface_perm {es fs : List (Node × Node)} (h : es.Perm fs) :
    stringKeysIface es = stringKeysIface fs := by
  induction h with
  | nil => rfl
  | @cons x l1 l2 _ ih =>
    rw [stringKeysIface_cons_split x l1, stringKeysIface_cons_split x l2, ih]
  | swap x y l =>
    rw [stringKeysIface_cons_split y (x :: l), stringKeysIface_cons_split x l,
      stringKeysIface_cons_split x (y :: l), stringKeysIface_cons_split y l,
      Bool.and_left_comm]
  | trans _ _ ih1 ih2 => exact ih1.trans ih2

/-- Listing the entries of objects in another order permutes the assignments of
the walk. -/
theorem Reordered.assignments_perm (fmtFloat : Float64 → GoString) {D E : Node}
    (h : Reordered D E) :
    ∀ key, (assignments fmtFloat D key).Perm (assignments fmtFloat E key) := by
  induction h with
  | same n => exact fun key => List.Perm.refl _
  | step _ _ ih1 ih2 => exact fun key => (ih1 key).trans (ih2 key)
  | permString hp =>
    intro key
    rw [assignments, assignments]
    exact stringAssignments_perm fmtFloat hp key
  | permIface hp =>
    intro key
    rw [assignments, assignments]
    exact ifaceAssignments_perm fmtFloat hp key
  | inString pre post k _ ih =>
    intro key
    rw [assignments, assignments, stringAssignments_append, stringAssignments_append,
      stringAssignments, stringAssignments]
    exact List.Perm.append_left _ (List.Perm.append_right _ (ih _))
  | inIface pre post k _ ih =>
    intro key
    rw [assignments, assignments, ifaceAssignments_append, ifaceAssignments_append]
    apply List.Perm.append_left
    by_cases hk : ∃ name, k = Node.str name
    · obtain ⟨name, rfl⟩ := hk
      rw [ifaceAssignments_cons_str, ifaceAssignments_cons_str]
      exact List.Perm.append_right _ (ih _)
    · have hk2 : ∀ name, k ≠ Node.str name := fun name h => hk ⟨name, h⟩
      rw [ifaceAssignments_cons_other _ _ _ _ _ hk2, ifaceAssignments_cons_other _ _ _ _ _ hk2]
  | inSlice pre post _ ih =>
    intro key
    rw [assignments, assignments, sliceAssignments_append, sliceAssignments_append,
      sliceAssignments, sliceAssignments]
    exact List.Perm.append_left _ (List.Perm.append_right _ (ih _))

/-- Listing the entries of objects in another order does not change whether
every mapping key is a string. -/
theorem Reordered.stringKeys_eq {D E : Node} (h : Reordered D E) :
    stringKeys D = stringKeys E := by
  induction h with
  | same n => rfl
  | step _ _ ih1 ih2 => exact ih1.trans ih2
  | permString hp =>
    rw [stringKeys, stringKeys]
    exact stringKeysString_perm hp
  | permIface hp =>
    rw [stringKeys, stringKeys]
    exact stringKeysIface_perm hp
  | inString pre post k _ ih =>
    rw [stringKeys, stringKeys, stringKeysString_append, stringKeysString_append,
      stringKeysString, stringKeysString, ih]
  | inIface pre post k _ ih =>
    rw [stringKeys, stringKeys, stringKeysIface_append, stringKeysIface_append]
    by_cases hk : ∃ name, k = Node.str name
    · obtain ⟨name, rfl⟩ := hk
      rw [stringKeysIface_cons_str, stringKeysIface_cons_str, ih]
    · have hk2 : ∀ name, k ≠ Node.str name := fun name h => hk ⟨name, h⟩
      rw [stringKeysIface_cons_other _ _ _ hk2, stringKeysIface_cons_other _ _ _ hk2]
  | inSlice pre post _ ih =>
    rw [stringKeys, stringKeys, stringKeysSlice_append, stringKeysSlice_append,
      stringKeysSlice, stringKeysSlice, ih]

theorem mapGet_none_of_not_mem (m : Vars) (k : GoString) (h : k ∉ mapKeys m) :
    mapGet m k = none := by
  cases hg : mapGet m k with
  | none => rfl
  | some v => exact absurd ((mapGet_isSome_iff m k).mp (by rw [hg]; rfl)) h

theorem mapGet_assignAll_nodup (vars es : Vars) (k : GoString) (h : (mapKeys es).Nodup) :
    mapGet (assignAll vars es) k =
      match mapGet es k with
      | some v => some v
      | none => mapGet vars k := by
  induction es generalizing vars with
  | nil => rfl
  | cons e es ih =>
    obtain ⟨a, b⟩ := e
    simp only [mapKeys, List.map_cons, List.nodup_cons] at h
    have hstep : assignAll vars ((a, b) :: es) = assignAll (mapSet vars a b) es := rfl
    rw [hstep, ih _ h.2, mapGet_mapSet]
    by_cases hk : k = a
    · subst hk
      rw [mapGet_none_of_not_mem es k h.1]
      simp [mapGet]
    · simp [mapGet, hk]

theorem mapGet_perm_nodup (m1 m2 : Vars) (k : GoString) (hp : m1.Perm m2)
    (hn : (mapKeys m1).Nodup) : mapGet m1 k = mapGet m2 k := by
  have hn2 : (mapKeys m2).Nodup := (hp.map Prod.fst).nodup_iff.mp hn
  apply option_eq_of_some_iff
  intro v
  constructor
  · intro h
    exact mapGet_of_mem_nodup m2 k v hn2 (hp.mem_iff.mp (mapGet_eq_some_mem m1 k v h))
  · intro h
    exact mapGet_of_mem_nodup m1 k v hn (hp.mem_iff.mpr (mapGet_eq_some_mem m2 k v h))

theorem filterVars_order (vars1 vars2 : Vars) (keys1 keys2 : List GoString)
    (hp : vars1.Perm vars2) (hn : (mapKeys vars1).Nodup)
    (hkeys : ∀ x, x ∈ keys1 ↔ x ∈ keys2) (k : GoString) :
    mapGet (filterVars vars1 keys1) k = mapGet (filterVars vars2 keys2) k := by
  apply option_eq_of_some_iff
  intro v
  rw [mapGet_filterVars, mapGet_filterVars, mapGet_perm_nodup vars1 vars2 k hp hn]
  constructor
  · rintro ⟨h1, key, hk1, hk2⟩
    exact ⟨h1, key, (hkeys key).mp hk1, hk2⟩
  · rintro ⟨h1, key, hk1, hk2⟩
    exact ⟨h1, key, (hkeys key).mpr hk1, hk2⟩

/-- C19: for a document whose leaves have pairwise distinct cleaned paths, the
walk gives the same map, entry for entry, in whatever order the fields of each
object are visited (and it panics in one order exactly when it panics in
every order); and the filter of `GetValues` gives the same map whatever the
order of iteration over the cache and whatever the order and the repetition of
the requested keys. -/
theorem nodeWalk_and_filter_ignore_order (fmtFloat : Float64 → GoString) (D E : Node)
    (p : GoString) (vars : Vars) (horder : Reordered D E)
    (hdistinct : (cleanedPaths fmtFloat D p).Nodup) :
    ((nodeWalk fmtFloat D p vars = none ∧ nodeWalk fmtFloat E p vars = none) ∨
        ∃ m1 m2, nodeWalk fmtFloat D p vars = some m1 ∧ nodeWalk fmtFloat E p vars = some m2 ∧
          ∀ k, mapGet m1 k = mapGet m2 k) ∧
      ∀ (cache1 cache2 : Vars) (keys1 keys2 : List GoString),
        cache1.Perm cache2 → (mapKeys cache1).Nodup → (∀ x, x ∈ keys1 ↔ x ∈ keys2) →
        ∀ k, mapGet (filterVars cache1 keys1) k = mapGet (filterVars cache2 keys2) k := by
  refine ⟨?_, fun cache1 cache2 keys1 keys2 hp hn hkeys k =>
    filterVars_order cache1 cache2 keys1 keys2 hp hn hkeys k⟩
  have hperm := Reordered.assignments_perm fmtFloat horder p
  have hkeys := Reordered.stringKeys_eq horder
  rw [nodeWalk_eq_assignAll, nodeWalk_eq_assignAll, ← hkeys]
  by_cases hs : stringKeys D = true
  · right
    rw [if_pos hs, if_pos hs]
    refine ⟨_, _, rfl, rfl, fun k => ?_⟩
    have hn2 : (mapKeys (assignments fmtFloat E p)).Nodup :=
      (hperm.map Prod.fst).nodup_iff.mp hdistinct
    rw [mapGet_assignAll_nodup vars _ k hdistinct, mapGet_assignAll_nodup vars _ k hn2,
      mapGet_perm_nodup _ _ k hperm hdistinct]
  · left
    rw [if_neg hs, if_neg hs]
    exact ⟨rfl, rfl⟩

/-- Witness of C19: the service document with the fields of `service` in either
order, and the cache of the examples listed in two orders with the request
`/a` once and twice. -/
theorem nodeWalk_and_filter_ignore_order_witness :
    (Reordered serviceDoc serviceDocSwapped ∧
        (cleanedPaths exampleLibs.fmtFloat serviceDoc "/".toList).Nodup) ∧
      nodeWalk exampleLibs.fmtFloat serviceDoc "/".toList []
        = some [("/service/enabled".toList, "true".toList),
            ("/service/port".toList, "8080".toList)] ∧
      nodeWalk exampleLibs.fmtFloat serviceDocSwapped "/".toList []
        = some [("/service/port".toList, "8080".toList),
            ("/service/enabled".toList, "true".toList)] ∧
      (((nodeWalk exampleLibs.fmtFloat serviceDoc "/".toList [] = none ∧
            nodeWalk exampleLibs.fmtFloat serviceDocSwapped "/".toList [] = none) ∨
          ∃ m1 m2, nodeWalk exampleLibs.fmtFloat serviceDoc "/".toList [] = some m1 ∧
            nodeWalk exampleLibs.fmtFloat serviceDocSwapped "/".toList [] = some m2 ∧
            ∀ k, mapGet m1 k = mapGet m2 k) ∧
        ∀ (cache1 cache2 : Vars) (keys1 keys2 : List GoString),
          cache1.Perm cache2 → (mapKeys cache1).Nodup → (∀ x, x ∈ keys1 ↔ x ∈ keys2) →
          ∀ k, mapGet (filterVars cache1 keys1) k = mapGet (filterVars cache2 keys2) k) :=
  ⟨⟨Reordered.inString [] [] "service".toList
        (Reordered.permString (List.Perm.swap _ _ [])),
      by decide⟩,
    by decide, by decide,
    nodeWalk_and_filter_ignore_order exampleLibs.fmtFloat serviceDoc serviceDocSwapped
      "/".toList []
      (Reordered.inString [] [] "service".toList (Reordered.permString (List.Perm.swap _ _ [])))
      (by decide)⟩
end Confd
